import Mathlib

/-!
# Verification of the Connect Four engine (`connect4.py`, `connect4player.py`)

Shallow embedding of the repository's board model, win detector, position
evaluator, minimax search and alpha-beta search, together with theorems
settling the frozen claims about them.

A rack is column-major, as in the source: a list of columns, each column a
list of cells from bottom (index 0) to top (index `len - 1`).  A cell holds
`0` (empty), `1` or `2` (the two player identities).  Cells and identities
are embedded as `Int` (Python integers; no overflow is involved anywhere,
all quantities stay far below 2^63).
-/

namespace Connect4

abbrev Board := List (List Int)

/-- `rack[i][j]` — cell access.  Every access performed by the embedded code
on the domains used in the theorems is in range, so the `getD` default is
never consulted there. -/
def getCell (rack : Board) (i j : Nat) : Int :=
  (rack.getD i []).getD j 0

/-- Writing `board[i][j] = v`. -/
def setCell (rack : Board) (i j : Nat) (v : Int) : Board :=
  rack.set i ((rack.getD i []).set j v)

/-- `connect4player.py::_flip_player` — `return 3 - id`. -/
def flipPlayer (id : Int) : Int := 3 - id

/-- The check `board[i][-1] == 0` (top cell of a column unowned), used by
`pick_move`, `_minimax`, `_minimax_with_alpha_beta_pruning` and `_is_tie`.
`getLast?` returns `none` exactly when Python's `[-1]` would raise. -/
def colOpen (col : List Int) : Bool := col.getLast? == some 0

/-- `connect4player.py::_is_tie` — no column has an unowned top cell. -/
def isTie (board : Board) : Bool := board.all fun col => !(colOpen col)

/-- `connect4player.py::_find_top_spot_open` — first index `i` (from the
bottom) with `board[collumn][i] == 0`; `none` models the
`raise Exception("Collumn Full")` fall-through. -/
def findTopSpotOpen (col : List Int) : Option Nat :=
  col.findIdx? (fun c => c == 0)

/-- `connect4player.py::_score_list` — scores one list of four positions.
The final `0` is the (unreachable for 4-element position lists, by the
`assert len(positions) == 4` and the two guards) fall-through where the
Python function returns `None`. -/
def scoreList (id : Int) (rack : Board) (positions : List (Nat × Nat)) : Int :=
  let numOne := (positions.filter (fun p => getCell rack p.1 p.2 == 1)).length
  let numTwo := (positions.filter (fun p => getCell rack p.1 p.2 == 2)).length
  if numTwo > 0 ∧ numOne > 0 then 0
  else if numTwo = 0 ∧ numOne = 0 then 0
  else
    let numTwoHigher := numTwo > numOne
    let score := max numOne numTwo
    let winningIdIsId := (numTwoHigher ∧ id = 2) ∨ ((¬ numTwoHigher) ∧ id = 1)
    if score = 1 then 1 * (if winningIdIsId then 1 else -1)
    else if score = 2 then 10 * (if winningIdIsId then 1 else -1)
    else if score = 3 then 100 * (if winningIdIsId then 1 else -1)
    else if score = 4 then 10000000 * (if winningIdIsId then 1 else -1)
    else 0

/-- The vertical ("up and down") loop nest of `_eval_function`. -/
def rawEvalVert (id : Int) (rack : Board) : Int :=
  (((List.range rack.length).map fun i =>
    (((List.range ((rack.getD i []).length - 3)).map fun j =>
      scoreList id rack [(i, j), (i, j+1), (i, j+2), (i, j+3)])).sum)).sum

/-- The "sideways" loop nest of `_eval_function`. -/
def rawEvalHoriz (id : Int) (rack : Board) : Int :=
  (((List.range (rack.length - 3)).map fun i =>
    (((List.range ((rack.getD i []).length)).map fun j =>
      scoreList id rack [(i, j), (i+1, j), (i+2, j), (i+3, j)])).sum)).sum

/-- The "diagonal North east" loop nest of `_eval_function`. -/
def rawEvalDiagNE (id : Int) (rack : Board) : Int :=
  (((List.range (rack.length - 3)).map fun i =>
    (((List.range ((rack.getD i []).length - 3)).map fun j =>
      scoreList id rack [(i, j), (i+1, j+1), (i+2, j+2), (i+3, j+3)])).sum)).sum

/-- The "diagonal North West" loop nest of `_eval_function`. -/
def rawEvalDiagNW (id : Int) (rack : Board) : Int :=
  (((List.range (rack.length - 3)).map fun i =>
    (((List.range ((rack.getD i []).length - 3)).map fun j =>
      scoreList id rack [(i, j+3), (i+1, j+2), (i+2, j+1), (i+3, j)])).sum)).sum

/-- The raw window sum accumulated in `score` by `_eval_function` before the
final clamp. -/
def rawEval (id : Int) (rack : Board) : Int :=
  rawEvalVert id rack + rawEvalHoriz id rack + rawEvalDiagNE id rack
    + rawEvalDiagNW id rack

/-- `connect4player.py::_eval_function` — raw window sum, clamped to the
`±10000000` sentinels beyond the `±100000` thresholds. -/
def evalFunction (id : Int) (rack : Board) : Int :=
  let score := rawEval id rack
  if score > 100000 then 10000000
  else if score < -100000 then -10000000
  else score

/-! ## Search engine

`_minimax` and `_minimax_with_alpha_beta_pruning` are embedded as a
structural recursion on the remaining depth.  In the source, `depth` (an
arbitrary Python integer) is used in exactly two ways: the test
`depth <= 0` and the recursive argument `depth - 1`, so the computation
depends on `depth` only through the natural number `depth.toNat`
(`depth ≤ 0 ↔ depth.toNat = 0`, and `(depth - 1).toNat = depth.toNat - 1`
when `depth > 0`).  The fuel-indexed functions (`minimaxN`, …) recurse on
that natural number; the `Int`-argument wrappers (`minimax`, …) have the
source's signature.  The column loops are factored out with the recursive
call abstracted as `child` (applied, in the loop, exactly to the arguments
the source passes).

The `| none` arms of the `match` on `_find_top_spot_open` are unreachable:
they are entered only when the guard `board[i][-1] == 0` has succeeded, and
then a zero cell exists in the column (theorem `findTopSpotOpen_of_colOpen`
below), so the `raise Exception("Collumn Full")` cannot fire. -/

/-- The column loop of `_minimax`: `child` is the recursive call at
depth `depth - 1` with the flipped player. -/
def mmLoop (child : Board → Int) (id : Int) (board : Board) :
    List Nat → Int → Int
  | [], best => best
  | i :: rest, best =>
    if colOpen (board.getD i []) then
      match findTopSpotOpen (board.getD i []) with
      | some row =>
        let score := -(child (setCell board i row id))
        mmLoop child id board rest (max score best)
      | none => mmLoop child id board rest best
    else mmLoop child id board rest best

/-- `connect4player.py::_minimax`, on the remaining-depth fuel. -/
def minimaxN (id : Int) (board : Board) : Nat → Int
  | 0 => evalFunction id board
  | n + 1 =>
    let currScore := evalFunction id board
    if currScore > 100000 then currScore - 1
    else if currScore < -100000 then currScore + 1
    else if isTie board then 0
    else
      let best := mmLoop (fun b => minimaxN (flipPlayer id) b n) id board
        (List.range board.length) (-100000000)
      if best > 100000 then best - 1
      else if best < -100000 then best + 1
      else best

/-- `connect4player.py::_minimax`. -/
def minimax (id : Int) (board : Board) (depth : Int) : Int :=
  minimaxN id board depth.toNat

/-- The column loop of `_minimax_with_alpha_beta_pruning`: `child` is the
recursive call at depth `depth - 1` with the flipped player.  The running
state is `(best, alpha)`; returning `best'` on `alpha' ≥ beta` is the
`break`. -/
def abpLoop (child : Board → Int → Int → Int) (id : Int) (board : Board) :
    List Nat → Int → Int → Int → Int
  | [], best, _alpha, _beta => best
  | i :: rest, best, alpha, beta =>
    if colOpen (board.getD i []) then
      match findTopSpotOpen (board.getD i []) with
      | some row =>
        let score := -(child (setCell board i row id) (-beta) (-alpha))
        let best' := max score best
        let alpha' := max alpha best'
        if alpha' ≥ beta then best'
        else abpLoop child id board rest best' alpha' beta
      | none => abpLoop child id board rest best alpha beta
    else abpLoop child id board rest best alpha beta

/-- `connect4player.py::_minimax_with_alpha_beta_pruning`, on the
remaining-depth fuel. -/
def minimaxABPN (id : Int) (board : Board) : Nat → Int → Int → Int
  | 0, _alpha, _beta => evalFunction id board
  | n + 1, alpha, beta =>
    let currScore := evalFunction id board
    if currScore > 100000 then currScore - 1
    else if currScore < -100000 then currScore + 1
    else if isTie board then 0
    else
      let best := abpLoop (fun b a' b' => minimaxABPN (flipPlayer id) b n a' b')
        id board (List.range board.length) (-100000000) alpha beta
      if best > 100000 then best - 1
      else if best < -100000 then best + 1
      else best

/-- `connect4player.py::_minimax_with_alpha_beta_pruning`. -/
def minimaxABP (id : Int) (board : Board) (depth alpha beta : Int) : Int :=
  minimaxABPN id board depth.toNat alpha beta

/-! ## Move selection (`pick_move`)

`pick_move` builds `scores` (`None` for a full column, otherwise the negated
alpha-beta score of the position after hypothetically dropping `self.id`'s
disc), then collects the columns tying for the best score and returns
`random.choice` of them.  The random choice is modelled by proving the
claimed properties of every member of `best_collumns`. -/

/-- One iteration of the first loop of `pick_move`: `None` for a full
column, otherwise the negated alpha-beta score of the position after
hypothetically dropping `id`'s disc at the top open spot of column `i`. -/
def moveScore (id difficultyLevel : Int) (rack : Board) (i : Nat) :
    Option Int :=
  if colOpen (rack.getD i []) then
    match findTopSpotOpen (rack.getD i []) with
    | some top =>
      some (-(minimaxABP (flipPlayer id) (setCell rack i top id)
        (difficultyLevel - 1) (-100000000) 100000000))
    | none => none
  else none

/-- The `scores` list built by the first loop of `pick_move`. -/
def pickMoveScores (id difficultyLevel : Int) (rack : Board) :
    List (Option Int) :=
  (List.range rack.length).map (moveScore id difficultyLevel rack)

/-- The second loop of `pick_move`: running `(best_score, best_collumns)`
over `scores`, with `i` the index of the head element. -/
def bestLoop : List (Option Int) → Nat → Int → List Nat → Int × List Nat
  | [], _, best, cols => (best, cols)
  | none :: rest, i, best, cols => bestLoop rest (i + 1) best cols
  | some s :: rest, i, best, cols =>
    let best' := if best < s then s else best
    let cols' := if best < s then [] else cols
    let cols'' := if best' = s then cols' ++ [i] else cols'
    bestLoop rest (i + 1) best' cols''

/-- `connect4player.py::pick_move`, up to the final `random.choice`: the
pair `(best_score, best_collumns)`. -/
def pickMoveBest (id difficultyLevel : Int) (rack : Board) : Int × List Nat :=
  bestLoop (pickMoveScores id difficultyLevel rack) 0 (-100000000) []

/-! ## Stateful embedding of the search (mutation tracking)

The source mutates one shared board (`board[i][row] = id`, recurse,
`board[i][row] = 0`).  To state the frame claim, the functions are embedded
a second time with the board threaded explicitly through every assignment
and returned alongside the score; each `setCell` below is one assignment
statement of the source, in source order. -/

/-- Column loop of `_minimax_with_alpha_beta_pruning` with the shared board
threaded through the mutations. -/
def abpLoopSt (child : Board → Int → Int → Int × Board) (id : Int) :
    Board → List Nat → Int → Int → Int → Int × Board
  | board, [], best, _alpha, _beta => (best, board)
  | board, i :: rest, best, alpha, beta =>
    if colOpen (board.getD i []) then
      match findTopSpotOpen (board.getD i []) with
      | some row =>
        let b1 := setCell board i row id
        let sb := child b1 (-beta) (-alpha)
        let score := -sb.1
        let best' := max score best
        let alpha' := max alpha best'
        let b2 := setCell sb.2 i row 0
        if alpha' ≥ beta then (best', b2)
        else abpLoopSt child id b2 rest best' alpha' beta
      | none => abpLoopSt child id board rest best alpha beta
    else abpLoopSt child id board rest best alpha beta

/-- `_minimax_with_alpha_beta_pruning` with the shared board threaded
through the mutations, on the remaining-depth fuel. -/
def minimaxABPNSt (id : Int) (board : Board) : Nat → Int → Int → Int × Board
  | 0, _alpha, _beta => (evalFunction id board, board)
  | n + 1, alpha, beta =>
    let currScore := evalFunction id board
    if currScore > 100000 then (currScore - 1, board)
    else if currScore < -100000 then (currScore + 1, board)
    else if isTie board then (0, board)
    else
      let bb := abpLoopSt (fun b a' b' => minimaxABPNSt (flipPlayer id) b n a' b')
        id board (List.range board.length) (-100000000) alpha beta
      let best := bb.1
      (if best > 100000 then best - 1
       else if best < -100000 then best + 1
       else best, bb.2)

/-- The score-collecting loop of `pick_move` with `imaginary_board`
threaded through the mutations.  As in the source, the open-column guard
reads `imaginary_board[i][-1]` while `_find_top_spot_open` is called on
`rack`. -/
def pickMoveScoresSt (id difficultyLevel : Int) (rack : Board) :
    Board → List Nat → List (Option Int) → List (Option Int) × Board
  | imag, [], scores => (scores, imag)
  | imag, i :: rest, scores =>
    if colOpen (imag.getD i []) then
      match findTopSpotOpen (rack.getD i []) with
      | some top =>
        let b1 := setCell imag i top id
        let sb := minimaxABPNSt (flipPlayer id) b1 (difficultyLevel - 1).toNat
          (-100000000) 100000000
        let score := -sb.1
        let b2 := setCell sb.2 i top 0
        pickMoveScoresSt id difficultyLevel rack b2 rest (scores ++ [some score])
      | none => pickMoveScoresSt id difficultyLevel rack imag rest (scores ++ [none])
    else pickMoveScoresSt id difficultyLevel rack imag rest (scores ++ [none])

/-! ## `connect4.py`: rack construction, disc placement, win detection -/

/-- `connect4.py::make_rack`. -/
def makeRack (numColumns : Nat := 7) (numRows : Nat := 6) : Board :=
  (List.range numColumns).map fun _ => (List.range numRows).map fun _ => 0

/-- `connect4.py::exists_legal_move`. -/
def existsLegalMove (rack : Board) : Bool :=
  rack.any fun col => colOpen col

/-- `connect4.py::place_disc` — mutates `rack`; embedded as returning the
new rack.  The `while rack[column][row] != 0: row += 1` scan stops at the
first unowned cell from the bottom; if the column has none (it is full) the
next iteration's read `rack[column][row]` with `row = len(rack[column])`
raises `IndexError`, and if `column` is not an index of `rack`, the first
read `rack[column][0]` raises `IndexError`.  (The function body has no
`return`, so its Python value is `None` — it does not return the landing
row.) -/
def place_disc (rack : Board) (playerNumber : Int) (column : Nat) :
    Except String Board :=
  if h : column < rack.length then
    match (rack.get ⟨column, h⟩).findIdx? (fun c => c == 0) with
    | some row =>
      Except.ok (rack.set column ((rack.get ⟨column, h⟩).set row playerNumber))
    | none => Except.error "IndexError: list index out of range"
  else Except.error "IndexError: list index out of range"

/-- The scan `row = num_rows - 1; while row > -1 and rack[column][row] == 0:
row -= 1` of `find_win`, returning `none` for `row == -1`.  The argument is
the number of cells still to inspect, counting down. -/
def findTopRowAux (col : List Int) : Nat → Option Nat
  | 0 => none
  | n + 1 => if col.getD n 0 == 0 then findTopRowAux col n else some n

/-- The left extension `while c > 0 and rack[c-1][row] == player: c -= 1`
of `find_win`'s horizontal check. -/
def extendLeft (rack : Board) (player : Int) (row : Nat) : Nat → Nat
  | 0 => 0
  | c + 1 => if getCell rack c row == player then extendLeft rack player row c
             else c + 1

/-- The right extension `while d < (num_cols-1) and rack[d+1][row] == player:
d += 1` of `find_win`'s horizontal check, structurally recursive on the
remaining loop capacity `numCols - 1 - d` (the guard `d < num_cols - 1`
holds exactly while that capacity is positive, and each `d += 1` lowers it
by one). -/
def extendRightAux (rack : Board) (player : Int) (row : Nat) :
    Nat → Nat → Nat
  | 0, d => d
  | rem + 1, d =>
    if getCell rack (d + 1) row == player then
      extendRightAux rack player row rem (d + 1)
    else d

def extendRight (rack : Board) (player : Int) (row : Nat) (numCols : Nat)
    (d : Nat) : Nat :=
  extendRightAux rack player row (numCols - 1 - d) d

/-- The down-left extension of `find_win`'s forward-diagonal check:
`while c > 0 and r > 0 and rack[c-1][r-1] == player: c -= 1; r -= 1`. -/
def extendDL (rack : Board) (player : Int) : Nat → Nat → Nat × Nat
  | 0, r => (0, r)
  | c + 1, 0 => (c + 1, 0)
  | c + 1, r + 1 =>
    if getCell rack c r == player then extendDL rack player c r
    else (c + 1, r + 1)

/-- The up-right extension of `find_win`'s forward-diagonal check:
`while d < (num_cols-1) and s < (num_rows-1) and rack[d+1][s+1] == player`,
structurally recursive on the remaining column capacity `numCols - 1 - d`. -/
def extendURAux (rack : Board) (player : Int) (numRows : Nat) :
    Nat → Nat → Nat → Nat × Nat
  | 0, d, s => (d, s)
  | rem + 1, d, s =>
    if s < numRows - 1 ∧ getCell rack (d + 1) (s + 1) == player then
      extendURAux rack player numRows rem (d + 1) (s + 1)
    else (d, s)

def extendUR (rack : Board) (player : Int) (numCols numRows : Nat)
    (d s : Nat) : Nat × Nat :=
  extendURAux rack player numRows (numCols - 1 - d) d s

/-- The up-left extension of `find_win`'s backward-diagonal check:
`while c > 0 and r < (num_rows-1) and rack[c-1][r+1] == player`. -/
def extendUL (rack : Board) (player : Int) (numRows : Nat) :
    Nat → Nat → Nat × Nat
  | 0, r => (0, r)
  | c + 1, r =>
    if r < numRows - 1 ∧ getCell rack c (r + 1) == player then
      extendUL rack player numRows c (r + 1)
    else (c + 1, r)

/-- The down-right extension of `find_win`'s backward-diagonal check:
`while d < (num_cols-1) and s > 0 and rack[d+1][s-1] == player`. -/
def extendDR (rack : Board) (player : Int) (numCols : Nat) (d : Nat) :
    Nat → Nat × Nat
  | 0 => (d, 0)
  | s + 1 =>
    if d < numCols - 1 ∧ getCell rack (d + 1) s == player then
      extendDR rack player numCols (d + 1) s
    else (d, s + 1)

/-- `connect4.py::find_win` with an explicit column hint. -/
def find_win (rack : Board) (column : Nat) :
    Option ((Nat × Nat) × (Nat × Nat)) :=
  let numCols := rack.length
  let numRows := (rack.getD 0 []).length
  match findTopRowAux (rack.getD column []) numRows with
  | none => none
  | some row =>
    let player := getCell rack column row
    -- vertical
    if 3 ≤ row ∧ getCell rack column row == getCell rack column (row - 1)
        ∧ getCell rack column row == getCell rack column (row - 2)
        ∧ getCell rack column row == getCell rack column (row - 3) then
      some ((column, row - 3), (column, row))
    else
      -- horizontal
      let c := extendLeft rack player row column
      let d := extendRight rack player row numCols column
      if 3 ≤ d - c then some ((c, row), (d, row))
      else
        -- forward diagonal
        let cr := extendDL rack player column row
        let ds := extendUR rack player numCols numRows column row
        if 3 ≤ ds.1 - cr.1 then some (cr, ds)
        else
          -- backward diagonal
          let cr' := extendUL rack player numRows column row
          let ds' := extendDR rack player numCols column row
          if 3 ≤ ds'.1 - cr'.1 then some (cr', ds')
          else none

/-- `connect4.py::find_win` with the column hint omitted.  The source reads

    for c in range(len(rack)):
        win = find_win(c)
        if win: return win
    return None

The recursive call passes the loop index `c` (an `int`) where the rack
belongs, so on the first iteration the recursion enters the no-hint branch
with `rack = c` and evaluates `len(c)`, raising
`TypeError: object of type 'int' has no len()`.  Only a rack with no
columns at all skips the loop and returns `None`. -/
def find_win_noHint (rack : Board) : Except String (Option ((Nat × Nat) × (Nat × Nat))) :=
  if rack.length = 0 then Except.ok none
  else Except.error "TypeError: object of type 'int' has no len()"

/-! ## Basic lemmas -/

/-- If a column's top cell is unowned then `_find_top_spot_open` finds an
in-range unowned cell (so its `raise Exception("Collumn Full")` branch is
unreachable behind the `board[i][-1] == 0` guards). -/
theorem findTopSpotOpen_of_colOpen {col : List Int} (h : colOpen col = true) :
    ∃ r, findTopSpotOpen col = some r ∧ r < col.length ∧ col.getD r 1 = 0 := by
  have hlast : col.getLast? = some 0 := by
    simpa [colOpen] using h
  have hmem : (0 : Int) ∈ col := by
    obtain ⟨ys, rfl⟩ := List.getLast?_eq_some_iff.mp hlast
    simp
  cases hfi : findTopSpotOpen col with
  | none =>
    exfalso
    have := List.findIdx?_eq_none_iff.mp hfi 0 hmem
    simp at this
  | some r =>
    obtain ⟨hr, hp, -⟩ := List.findIdx?_eq_some_iff_getElem.mp hfi
    refine ⟨r, rfl, hr, ?_⟩
    rw [List.getD_eq_getElem _ _ hr]
    simpa using hp

/-- `findTopSpotOpen` characterised: the found row is the lowest unowned
cell of the column. -/
theorem findTopSpotOpen_eq_some_iff {col : List Int} {r : Nat} :
    findTopSpotOpen col = some r ↔
      r < col.length ∧ col.getD r 1 = 0 ∧ ∀ j < r, col.getD j 1 ≠ 0 := by
  rw [findTopSpotOpen, List.findIdx?_eq_some_iff_getElem]
  constructor
  · rintro ⟨h, hp, hmin⟩
    refine ⟨h, ?_, ?_⟩
    · rw [List.getD_eq_getElem _ _ h]; simpa using hp
    · intro j hj
      rw [List.getD_eq_getElem _ _ (hj.trans h)]
      have := hmin j hj
      simpa using this
  · rintro ⟨h, hp, hmin⟩
    refine ⟨h, ?_, ?_⟩
    · rw [List.getD_eq_getElem _ _ h] at hp; simpa using hp
    · intro j hj
      have := hmin j hj
      rw [List.getD_eq_getElem _ _ (hj.trans h)] at this
      simpa using this

/-! ## Claim C10 — `_find_top_spot_open` is only called on open columns -/

/-- C10: in `pick_move`, `_minimax` and `_minimax_with_alpha_beta_pruning`
every call to `_find_top_spot_open` sits behind the guard
`board[i][-1] == 0` (see `mmLoop`, `abpLoop`, `pickMoveScores`, which test
`colOpen` on exactly the column then passed on); under that guard the
"Collumn Full" exception branch is unreachable and the call returns an
in-range row index of an unowned cell of that column. -/
theorem findTopSpotOpen_safe_under_guard (col : List Int)
    (hguard : colOpen col = true) :
    ∃ r, findTopSpotOpen col = some r ∧ r < col.length ∧ col.getD r 1 = 0 :=
  findTopSpotOpen_of_colOpen hguard

/-- Witness for C10 at the column `[1, 0]`. -/
theorem findTopSpotOpen_safe_under_guard_witness :
    colOpen [(1 : Int), 0] = true ∧
      ∃ r, findTopSpotOpen [(1 : Int), 0] = some r ∧ r < 2 ∧
        [(1 : Int), 0].getD r 1 = 0 :=
  ⟨by decide, findTopSpotOpen_safe_under_guard [(1 : Int), 0] (by decide)⟩

/-! ## Claim C9 — `place_disc` -/

/-- C9 counterexample: on a full column, `place_disc` raises `IndexError`
(the while-scan runs past the end of the list), not an `IllegalMoveError`
— no such exception class exists anywhere in the source; and the function
body has no `return`, so no landing row index is returned either. -/
theorem place_disc_counterexample :
    place_disc [[(1 : Int), 2], [0, 0]] 2 0 =
        Except.error "IndexError: list index out of range" ∧
      "IndexError: list index out of range" ≠ "IllegalMoveError" := by
  constructor
  · rfl
  · decide

/-- C9 (amended): given an in-range column that is not full, `place_disc`
assigns the player to the lowest unowned cell of that column (returning no
row index — the Python function returns `None`); on a full column or an
out-of-range index it fails with an `IndexError` and produces no board at
all, so the board is never corrupted. -/
theorem place_disc_spec (rack : Board) (player : Int) (column : Nat) :
    (∀ (h : column < rack.length) (r : Nat),
        r < (rack.get ⟨column, h⟩).length → (rack.get ⟨column, h⟩).getD r 1 = 0 →
        ∃ row, row < (rack.get ⟨column, h⟩).length ∧
          (rack.get ⟨column, h⟩).getD row 1 = 0 ∧
          (∀ j < row, (rack.get ⟨column, h⟩).getD j 1 ≠ 0) ∧
          place_disc rack player column =
            Except.ok (setCell rack column row player)) ∧
    (∀ (h : column < rack.length),
        (∀ r < (rack.get ⟨column, h⟩).length, (rack.get ⟨column, h⟩).getD r 1 ≠ 0) →
        place_disc rack player column =
          Except.error "IndexError: list index out of range") ∧
    (rack.length ≤ column →
        place_disc rack player column =
          Except.error "IndexError: list index out of range") := by
  refine ⟨?_, ?_, ?_⟩
  · intro h r hr hr0
    cases hfi : (rack.get ⟨column, h⟩).findIdx? (fun c => c == 0) with
    | none =>
      exfalso
      have hmem : (rack.get ⟨column, h⟩)[r] ∈ rack.get ⟨column, h⟩ :=
        List.getElem_mem hr
      have hall := List.findIdx?_eq_none_iff.mp hfi _ hmem
      rw [List.getD_eq_getElem _ _ hr] at hr0
      simp only [List.get_eq_getElem] at hr0
      simp [hr0] at hall
    | some row =>
      have hspec : findTopSpotOpen (rack.get ⟨column, h⟩) = some row := hfi
      obtain ⟨hlt, h0, hmin⟩ := findTopSpotOpen_eq_some_iff.mp hspec
      refine ⟨row, hlt, h0, hmin, ?_⟩
      rw [place_disc, dif_pos h, hfi]
      have : rack.get ⟨column, h⟩ = rack.getD column [] := by
        rw [List.getD_eq_getElem _ _ h, List.get_eq_getElem]
      rw [setCell, this]
  · intro h hfull
    rw [place_disc, dif_pos h]
    cases hfi : (rack.get ⟨column, h⟩).findIdx? (fun c => c == 0) with
    | none => rfl
    | some row =>
      exfalso
      obtain ⟨hlt, h0, -⟩ := findTopSpotOpen_eq_some_iff.mp (hfi :
        findTopSpotOpen (rack.get ⟨column, h⟩) = some row)
      exact hfull row hlt h0
  · intro h
    rw [place_disc, dif_neg (by omega)]

/-- Witness for C9 on a 3×2 rack: dropping into column 1 lands at row 0;
dropping into the full column 0 and into the out-of-range column 5 raise. -/
theorem place_disc_spec_witness :
    (∃ row, row < 2 ∧
        ([[(1 : Int), 2], [0, 0], [0, 0]].get
            (⟨1, by decide⟩ : Fin 3)).getD row 1 = 0 ∧
        (∀ j < row,
          ([[(1 : Int), 2], [0, 0], [0, 0]].get
              (⟨1, by decide⟩ : Fin 3)).getD j 1 ≠ 0) ∧
        place_disc [[(1 : Int), 2], [0, 0], [0, 0]] 2 1 =
          Except.ok (setCell [[(1 : Int), 2], [0, 0], [0, 0]] 1 row 2)) ∧
    place_disc [[(1 : Int), 2], [0, 0], [0, 0]] 2 0 =
        Except.error "IndexError: list index out of range" ∧
    place_disc [[(1 : Int), 2], [0, 0], [0, 0]] 2 5 =
        Except.error "IndexError: list index out of range" := by
  refine ⟨?_, ?_, ?_⟩
  · have h := (place_disc_spec [[(1 : Int), 2], [0, 0], [0, 0]] 2 1).1
      (by decide) 0 (by decide) (by decide)
    simpa using h
  · exact (place_disc_spec [[(1 : Int), 2], [0, 0], [0, 0]] 2 0).2.1 (by decide)
      (by decide)
  · exact (place_disc_spec [[(1 : Int), 2], [0, 0], [0, 0]] 2 5).2.2 (by decide)

/-! ## Claim C4 — `find_win` in full-scan mode -/

/-- C4: in full-scan mode the loop's recursive call is `find_win(c)` — the
loop index is passed where the rack belongs — so on the standard empty 7×6
rack (indeed on any rack with at least one column) the call raises
`TypeError` instead of scanning the columns and returning `None`. -/
theorem find_win_noHint_crashes_on_empty_rack :
    find_win_noHint (makeRack 7 6) =
        Except.error "TypeError: object of type 'int' has no len()" ∧
      (∀ rack : Board, rack.length ≠ 0 →
        find_win_noHint rack =
          Except.error "TypeError: object of type 'int' has no len()") := by
  refine ⟨rfl, ?_⟩
  intro rack h
  rw [find_win_noHint, if_neg h]

/-! ## Claim C2 — order of the base cases of the alpha-beta search -/

/-- C2 counterexample: on a board whose static evaluation exceeds the
100,000 threshold but with `depth ≤ 0`, the search returns the *unadjusted*
evaluation: the `depth <= 0` cutoff is checked before the win/loss check,
not after it as the claim states. -/
theorem minimaxABP_depth_check_first :
    evalFunction 1 [[(1 : Int)], [1], [1], [1]] > 100000 ∧
      minimaxABP 1 [[(1 : Int)], [1], [1], [1]] 0 (-100000000) 100000000 =
        evalFunction 1 [[(1 : Int)], [1], [1], [1]] ∧
      minimaxABP 1 [[(1 : Int)], [1], [1], [1]] 0 (-100000000) 100000000 ≠
        evalFunction 1 [[(1 : Int)], [1], [1], [1]] - 1 := by
  refine ⟨by decide, by decide, by decide⟩

/-- C2 (amended): the base cases are checked in the order: (1) if
`depth_remaining ≤ 0`, return the static evaluation with no adjustment —
even on a decided board; only for `depth_remaining > 0`: (2) a static
evaluation beyond the ±100,000 threshold is returned adjusted by 1 toward
zero, (3) then a board with no legal column returns 0 (tie). -/
theorem minimaxABP_base_case_order (id : Int) (board : Board)
    (depth alpha beta : Int) :
    (depth ≤ 0 → minimaxABP id board depth alpha beta = evalFunction id board) ∧
    (0 < depth → evalFunction id board > 100000 →
      minimaxABP id board depth alpha beta = evalFunction id board - 1) ∧
    (0 < depth → evalFunction id board < -100000 →
      minimaxABP id board depth alpha beta = evalFunction id board + 1) ∧
    (0 < depth → -100000 ≤ evalFunction id board →
      evalFunction id board ≤ 100000 → isTie board = true →
      minimaxABP id board depth alpha beta = 0) := by
  refine ⟨?_, ?_, ?_, ?_⟩
  · intro h
    have : depth.toNat = 0 := Int.toNat_eq_zero.mpr h
    rw [minimaxABP, this, minimaxABPN]
  · intro hd hgt
    obtain ⟨n, hn⟩ : ∃ n, depth.toNat = n + 1 := by
      refine ⟨depth.toNat - 1, ?_⟩; omega
    rw [minimaxABP, hn, minimaxABPN, if_pos hgt]
  · intro hd hlt
    obtain ⟨n, hn⟩ : ∃ n, depth.toNat = n + 1 := by
      refine ⟨depth.toNat - 1, ?_⟩; omega
    rw [minimaxABP, hn, minimaxABPN, if_neg (by omega), if_pos hlt]
  · intro hd h1 h2 htie
    obtain ⟨n, hn⟩ : ∃ n, depth.toNat = n + 1 := by
      refine ⟨depth.toNat - 1, ?_⟩; omega
    rw [minimaxABP, hn, minimaxABPN, if_neg (by omega), if_neg (by omega),
      if_pos htie]

/-- Witness for C2's amended order at concrete boards: a decided board at
depth 0 and at depth 3, a losing board at depth 3, and a tied quiet board
at depth 1. -/
theorem minimaxABP_base_case_order_witness :
    minimaxABP 1 [[(1 : Int)], [1], [1], [1]] 0 (-100000000) 100000000 =
        evalFunction 1 [[(1 : Int)], [1], [1], [1]] ∧
      minimaxABP 1 [[(1 : Int)], [1], [1], [1]] 3 (-100000000) 100000000 =
        evalFunction 1 [[(1 : Int)], [1], [1], [1]] - 1 ∧
      minimaxABP 1 [[(2 : Int)], [2], [2], [2]] 3 (-100000000) 100000000 =
        evalFunction 1 [[(2 : Int)], [2], [2], [2]] + 1 ∧
      minimaxABP 1 [[(1 : Int)], [2]] 1 (-100000000) 100000000 = 0 := by
  refine ⟨(minimaxABP_base_case_order 1 _ 0 _ _).1 (by decide),
    (minimaxABP_base_case_order 1 _ 3 _ _).2.1 (by decide) (by decide),
    (minimaxABP_base_case_order 1 _ 3 _ _).2.2.1 (by decide) (by decide),
    (minimaxABP_base_case_order 1 _ 1 _ _).2.2.2 (by decide) (by decide)
      (by decide) (by decide)⟩

/-! ## Claim C5 — zero-sum symmetry of the evaluator -/

/-- `_score_list` is antisymmetric in the two player identities: the window
counts do not depend on `id`, and `winning_id_is_id` flips. -/
theorem scoreList_flip (p : Int) (hp : p = 1 ∨ p = 2) (rack : Board)
    (positions : List (Nat × Nat)) :
    scoreList (flipPlayer p) rack positions = -(scoreList p rack positions) := by
  rcases hp with rfl | rfl <;>
    · simp only [scoreList, flipPlayer]
      norm_num
      split_ifs <;> first | rfl | omega

/-- Summing pointwise negations negates the sum. -/
theorem sum_map_neg {α : Type} (l : List α) (f : α → Int) :
    (l.map fun x => -(f x)).sum = -((l.map f).sum) := by
  induction l with
  | nil => simp
  | cons a t ih => simp [ih]; ring

/-- One loop nest of `_eval_function` under a flip of the player. -/
theorem nested_sum_flip (p : Int) (hp : p = 1 ∨ p = 2) (rack : Board)
    (outer : List Nat) (inner : Nat → List Nat)
    (w : Nat → Nat → List (Nat × Nat)) :
    ((outer.map fun i => (((inner i).map fun j =>
        scoreList (flipPlayer p) rack (w i j))).sum)).sum
      = -(((outer.map fun i => (((inner i).map fun j =>
        scoreList p rack (w i j))).sum)).sum) := by
  have hinner : ∀ i,
      (((inner i).map fun j => scoreList (flipPlayer p) rack (w i j))).sum
        = -((((inner i).map fun j => scoreList p rack (w i j))).sum) := by
    intro i
    rw [List.map_congr_left (fun j _ => scoreList_flip p hp rack (w i j)),
      sum_map_neg]
  rw [List.map_congr_left (fun i _ => hinner i), sum_map_neg]

/-- The raw window sum is antisymmetric in the player. -/
theorem rawEval_flip (p : Int) (hp : p = 1 ∨ p = 2) (rack : Board) :
    rawEval (flipPlayer p) rack = -(rawEval p rack) := by
  have hv := nested_sum_flip p hp rack (List.range rack.length)
    (fun i => List.range ((rack.getD i []).length - 3))
    (fun i j => [(i, j), (i, j+1), (i, j+2), (i, j+3)])
  have hh := nested_sum_flip p hp rack (List.range (rack.length - 3))
    (fun i => List.range ((rack.getD i []).length))
    (fun i j => [(i, j), (i+1, j), (i+2, j), (i+3, j)])
  have hne := nested_sum_flip p hp rack (List.range (rack.length - 3))
    (fun i => List.range ((rack.getD i []).length - 3))
    (fun i j => [(i, j), (i+1, j+1), (i+2, j+2), (i+3, j+3)])
  have hnw := nested_sum_flip p hp rack (List.range (rack.length - 3))
    (fun i => List.range ((rack.getD i []).length - 3))
    (fun i j => [(i, j+3), (i+1, j+2), (i+2, j+1), (i+3, j)])
  simp only [rawEval, rawEvalVert, rawEvalHoriz, rawEvalDiagNE, rawEvalDiagNW]
  rw [hv, hh, hne, hnw]
  ring

/-- C5: zero-sum symmetry of `_eval_function` — for racks over `{0,1,2}`
and a valid player identity, the evaluation for `p` is the exact negation
of the evaluation for `flip(p) = 3 - p`. -/
theorem evalFunction_zero_sum (p : Int) (hp : p = 1 ∨ p = 2) (rack : Board)
    (_hcells : ∀ col ∈ rack, ∀ c ∈ col, c = 0 ∨ c = 1 ∨ c = 2) :
    evalFunction p rack = -(evalFunction (flipPlayer p) rack) := by
  have hraw := rawEval_flip p hp rack
  simp only [evalFunction, hraw]
  split_ifs <;> omega

/-- Witness for C5 at `p = 1` on a small rack. -/
theorem evalFunction_zero_sum_witness :
    ((1 : Int) = 1 ∨ (1 : Int) = 2) ∧
      (∀ col ∈ [[(1 : Int), 0], [2, 0], [0, 0], [1, 2]], ∀ c ∈ col,
        c = 0 ∨ c = 1 ∨ c = 2) ∧
      evalFunction 1 [[(1 : Int), 0], [2, 0], [0, 0], [1, 2]] =
        -(evalFunction (flipPlayer 1) [[(1 : Int), 0], [2, 0], [0, 0], [1, 2]]) :=
  ⟨Or.inl rfl, by decide,
    evalFunction_zero_sum 1 (Or.inl rfl) _ (by decide)⟩

/-! ## Boundedness of the search values -/

/-- `_eval_function` always lands in `[-10^7, 10^7]`. -/
theorem evalFunction_bounds (id : Int) (rack : Board) :
    -10000000 ≤ evalFunction id rack ∧ evalFunction id rack ≤ 10000000 := by
  simp only [evalFunction]
  split_ifs <;> omega

/-- The alpha-beta column loop never returns less than its running best. -/
theorem abpLoop_ge_seed (child : Board → Int → Int → Int) (id : Int)
    (board : Board) (cols : List Nat) (seed alpha beta : Int) :
    seed ≤ abpLoop child id board cols seed alpha beta := by
  induction cols generalizing seed alpha with
  | nil => simp [abpLoop]
  | cons i rest ih =>
    simp only [abpLoop]
    split
    · split
      · split
        · exact le_max_right _ _
        · exact le_trans (le_max_right _ _) (ih _ _)
      · exact ih _ _
    · exact ih _ _

/-- Upper bound for the alpha-beta column loop, given a lower bound `-U`
on all child scores. -/
theorem abpLoop_le (child : Board → Int → Int → Int) (id : Int)
    (board : Board) (cols : List Nat) (seed alpha beta M U : Int)
    (hchild : ∀ b a2 b2, -U ≤ child b a2 b2) (hUM : U ≤ M) :
    seed ≤ M → abpLoop child id board cols seed alpha beta ≤ M := by
  induction cols generalizing seed alpha with
  | nil => intro h; simpa [abpLoop]
  | cons i rest ih =>
    intro hseed
    simp only [abpLoop]
    split
    · split
      · rename_i row _
        have hsc : -(child (setCell board i row id) (-beta) (-alpha)) ≤ M := by
          have := hchild (setCell board i row id) (-beta) (-alpha)
          omega
        split
        · exact max_le hsc hseed
        · exact ih _ _ (max_le hsc hseed)
      · exact ih _ _ hseed
    · exact ih _ _ hseed

/-- Lower bound for the alpha-beta column loop: if some listed column is
open, at least one child is examined before any `break`, so the result is
at least `-U` for `U` an upper bound on child scores. -/
theorem abpLoop_ge_of_open (child : Board → Int → Int → Int) (id : Int)
    (board : Board) (cols : List Nat) (seed alpha beta U : Int)
    (hchild : ∀ b a2 b2, child b a2 b2 ≤ U) {i : Nat} (hmem : i ∈ cols)
    (hopen : colOpen (board.getD i []) = true) :
    -U ≤ abpLoop child id board cols seed alpha beta := by
  induction cols generalizing seed alpha with
  | nil => cases hmem
  | cons j rest ih =>
    simp only [abpLoop]
    by_cases hj : colOpen (board.getD j []) = true
    · rw [if_pos hj]
      split
      · rename_i row heq
        have hsc : -U ≤ -(child (setCell board j row id) (-beta) (-alpha)) := by
          have := hchild (setCell board j row id) (-beta) (-alpha)
          omega
        split
        · exact le_trans hsc (le_max_left _ _)
        · exact le_trans (le_trans hsc (le_max_left _ _))
            (abpLoop_ge_seed _ _ _ _ _ _ _)
      · rename_i heq
        obtain ⟨r, hr, -, -⟩ := findTopSpotOpen_of_colOpen hj
        rw [hr] at heq
        cases heq
    · rw [if_neg hj]
      have hij : i ∈ rest := by
        rcases List.mem_cons.mp hmem with rfl | h
        · exact absurd hopen hj
        · exact h
      exact ih _ _ hij

/-- A board that is not a tie has an open column among the loop indices. -/
theorem exists_open_of_not_tie {board : Board} (h : isTie board = false) :
    ∃ i ∈ List.range board.length, colOpen (board.getD i []) = true := by
  rw [isTie, List.all_eq_false] at h
  obtain ⟨col, hcol, hopen⟩ := h
  obtain ⟨k, hk, rfl⟩ := List.getElem_of_mem hcol
  refine ⟨k, List.mem_range.mpr hk, ?_⟩
  rw [List.getD_eq_getElem _ _ hk]
  simpa using hopen

/-- The alpha-beta search value always lands in `[-10^7, 10^7]`. -/
theorem minimaxABPN_bounds (n : Nat) (id : Int) (board : Board)
    (alpha beta : Int) :
    -10000000 ≤ minimaxABPN id board n alpha beta ∧
      minimaxABPN id board n alpha beta ≤ 10000000 := by
  induction n generalizing id board alpha beta with
  | zero => exact evalFunction_bounds id board
  | succ n ih =>
    have hev := evalFunction_bounds id board
    by_cases h1 : evalFunction id board > 100000
    · simp only [minimaxABPN]
      rw [if_pos h1]
      omega
    · by_cases h2 : evalFunction id board < -100000
      · simp only [minimaxABPN]
        rw [if_neg h1, if_pos h2]
        omega
      · by_cases h3 : isTie board = true
        · simp only [minimaxABPN]
          rw [if_neg h1, if_neg h2, if_pos h3]
          omega
        · have htie : isTie board = false := by simpa using h3
          obtain ⟨i, hi, hopen⟩ := exists_open_of_not_tie htie
          have hi' : i ∈ List.range board.length := hi
          have hup : abpLoop
              (fun b a' b' => minimaxABPN (flipPlayer id) b n a' b')
              id board (List.range board.length) (-100000000) alpha beta
                ≤ 10000000 :=
            abpLoop_le _ _ _ _ _ _ _ 10000000 10000000
              (fun b a2 b2 => (ih (flipPlayer id) b a2 b2).1) le_rfl (by omega)
          have hlo : -10000000 ≤ abpLoop
              (fun b a' b' => minimaxABPN (flipPlayer id) b n a' b')
              id board (List.range board.length) (-100000000) alpha beta :=
            abpLoop_ge_of_open _ _ _ _ _ _ _ 10000000
              (fun b a2 b2 => (ih (flipPlayer id) b a2 b2).2) hi' hopen
          simp only [minimaxABPN]
          rw [if_neg h1, if_neg h2, if_neg h3]
          split_ifs <;> omega

/-- The alpha-beta search value always lands in `[-10^7, 10^7]` (Int-depth
wrapper form). -/
theorem minimaxABP_bounds (id : Int) (board : Board) (depth alpha beta : Int) :
    -10000000 ≤ minimaxABP id board depth alpha beta ∧
      minimaxABP id board depth alpha beta ≤ 10000000 :=
  minimaxABPN_bounds depth.toNat id board alpha beta

/-! ## Claim C1 — `pick_move` picks a legal column of maximal score -/

/-- Invariants of `pick_move`'s best-score/best-columns loop, processing the
scores of columns `i0, i0+1, …, i0+k-1`: the final best is an upper bound of
the seed and of every processed score, every collected column's score equals
the final best, and the collection is nonempty as soon as it starts nonempty
or some processed score strictly exceeds the seed. -/
theorem bestLoop_spec (f : Nat → Option Int) :
    ∀ (k i0 : Nat) (b0 : Int) (c0 : List Nat),
      (∀ c ∈ c0, f c = some b0) →
      b0 ≤ (bestLoop ((List.range' i0 k).map f) i0 b0 c0).1 ∧
      (∀ j, i0 ≤ j → j < i0 + k → ∀ s, f j = some s →
        s ≤ (bestLoop ((List.range' i0 k).map f) i0 b0 c0).1) ∧
      (∀ c ∈ (bestLoop ((List.range' i0 k).map f) i0 b0 c0).2,
        f c = some ((bestLoop ((List.range' i0 k).map f) i0 b0 c0).1)) ∧
      ((c0 ≠ [] ∨ ∃ j, i0 ≤ j ∧ j < i0 + k ∧ ∃ s, f j = some s ∧ b0 < s) →
        (bestLoop ((List.range' i0 k).map f) i0 b0 c0).2 ≠ []) := by
  intro k
  induction k with
  | zero =>
    intro i0 b0 c0 hc0
    refine ⟨le_rfl, ?_, hc0, ?_⟩
    · intro j h1 h2; omega
    · rintro (h | ⟨j, h1, h2, -⟩)
      · exact h
      · omega
  | succ k ih =>
    intro i0 b0 c0 hc0
    rw [List.range'_succ, List.map_cons]
    cases hf : f i0 with
    | none =>
      simp only [bestLoop]
      obtain ⟨S1, S2, S3, S4⟩ := ih (i0 + 1) b0 c0 hc0
      refine ⟨S1, ?_, S3, ?_⟩
      · intro j h1 h2 s hs
        rcases Nat.eq_or_lt_of_le h1 with rfl | h1'
        · rw [hf] at hs; cases hs
        · exact S2 j h1' (by omega) s hs
      · rintro (h | ⟨j, h1, h2, s, hs, hlt⟩)
        · exact S4 (Or.inl h)
        · rcases Nat.eq_or_lt_of_le h1 with rfl | h1'
          · rw [hf] at hs; cases hs
          · exact S4 (Or.inr ⟨j, h1', by omega, s, hs, hlt⟩)
    | some s =>
      simp only [bestLoop]
      rcases lt_trichotomy b0 s with hlt | heq | hgt
      · rw [if_pos hlt, if_pos hlt, if_pos rfl]
        have hc0' : ∀ c ∈ List.nil ++ [i0], f c = some s := by
          intro c hc
          simp at hc
          subst hc
          exact hf
        obtain ⟨S1, S2, S3, S4⟩ := ih (i0 + 1) s ([] ++ [i0]) hc0'
        refine ⟨le_trans (le_of_lt hlt) S1, ?_, S3, fun _ => S4 (Or.inl (by simp))⟩
        intro j h1 h2 s' hs'
        rcases Nat.eq_or_lt_of_le h1 with rfl | h1'
        · rw [hf] at hs'
          cases hs'
          exact S1
        · exact S2 j h1' (by omega) s' hs'
      · subst heq
        rw [if_neg (lt_irrefl b0), if_neg (lt_irrefl b0), if_pos rfl]
        have hc0' : ∀ c ∈ c0 ++ [i0], f c = some b0 := by
          intro c hc
          rcases List.mem_append.mp hc with h | h
          · exact hc0 c h
          · simp at h
            subst h
            exact hf
        obtain ⟨S1, S2, S3, S4⟩ := ih (i0 + 1) b0 (c0 ++ [i0]) hc0'
        refine ⟨S1, ?_, S3, fun _ => S4 (Or.inl (by simp))⟩
        intro j h1 h2 s' hs'
        rcases Nat.eq_or_lt_of_le h1 with rfl | h1'
        · rw [hf] at hs'
          cases hs'
          exact S1
        · exact S2 j h1' (by omega) s' hs'
      · rw [if_neg (by omega), if_neg (by omega), if_neg (by omega)]
        obtain ⟨S1, S2, S3, S4⟩ := ih (i0 + 1) b0 c0 hc0
        refine ⟨S1, ?_, S3, ?_⟩
        · intro j h1 h2 s' hs'
          rcases Nat.eq_or_lt_of_le h1 with rfl | h1'
          · rw [hf] at hs'
            cases hs'
            exact le_trans (le_of_lt hgt) S1
          · exact S2 j h1' (by omega) s' hs'
        · rintro (h | ⟨j, h1, h2, s', hs', hlt'⟩)
          · exact S4 (Or.inl h)
          · rcases Nat.eq_or_lt_of_le h1 with rfl | h1'
            · rw [hf] at hs'
              cases hs'
              omega
            · exact S4 (Or.inr ⟨j, h1', by omega, s', hs', hlt'⟩)

/-- A recorded score certifies an in-range open column. -/
theorem moveScore_eq_some (id lvl : Int) (rack : Board) {c : Nat} {s : Int}
    (h : moveScore id lvl rack c = some s) :
    c < rack.length ∧ colOpen (rack.getD c []) = true ∧
      ∃ top, findTopSpotOpen (rack.getD c []) = some top ∧
        s = -(minimaxABP (flipPlayer id) (setCell rack c top id)
          (lvl - 1) (-100000000) 100000000) := by
  by_cases hopen : colOpen (rack.getD c []) = true
  · have hc : c < rack.length := by
      by_contra hc
      rw [List.getD_eq_default _ _ (by omega)] at hopen
      simp [colOpen] at hopen
    rw [moveScore, if_pos hopen] at h
    obtain ⟨top, htop, -, -⟩ := findTopSpotOpen_of_colOpen hopen
    rw [htop] at h
    cases h
    exact ⟨hc, hopen, top, htop, rfl⟩
  · rw [moveScore, if_neg hopen] at h
    cases h

/-- An open column's score is recorded (never `None`). -/
theorem moveScore_of_open (id lvl : Int) (rack : Board) {c : Nat}
    (hopen : colOpen (rack.getD c []) = true) :
    ∃ s, moveScore id lvl rack c = some s ∧ -10000000 ≤ s ∧ s ≤ 10000000 := by
  obtain ⟨top, htop, -, -⟩ := findTopSpotOpen_of_colOpen hopen
  refine ⟨_, by rw [moveScore, if_pos hopen, htop], ?_, ?_⟩
  · have := (minimaxABP_bounds (flipPlayer id) (setCell rack c top id)
      (lvl - 1) (-100000000) 100000000).2
    omega
  · have := (minimaxABP_bounds (flipPlayer id) (setCell rack c top id)
      (lvl - 1) (-100000000) 100000000).1
    omega

/-- C1: whenever some column is open and the player identity is valid,
`pick_move`'s `best_collumns` list (from which the returned column is drawn
by `random.choice`) is nonempty, and every column in it is legal (its top
cell is 0) with recorded score — the negation of
`_minimax_with_alpha_beta_pruning` on the rack after hypothetically
dropping the player's disc there, with the flipped player, depth
`difficulty_level - 1` and the full window — equal to the maximum recorded
score over all legal columns. -/
theorem pick_move_correct (id difficultyLevel : Int)
    (_hid : id = 1 ∨ id = 2) (rack : Board)
    (hlegal : ∃ i, i < rack.length ∧ colOpen (rack.getD i []) = true) :
    (pickMoveBest id difficultyLevel rack).2 ≠ [] ∧
    ∀ c ∈ (pickMoveBest id difficultyLevel rack).2,
      c < rack.length ∧ colOpen (rack.getD c []) = true ∧
      (∃ top, findTopSpotOpen (rack.getD c []) = some top ∧
        -(minimaxABP (flipPlayer id) (setCell rack c top id)
            (difficultyLevel - 1) (-100000000) 100000000) =
          (pickMoveBest id difficultyLevel rack).1) ∧
      ∀ j < rack.length, ∀ s, moveScore id difficultyLevel rack j = some s →
        s ≤ (pickMoveBest id difficultyLevel rack).1 := by
  have hrw : pickMoveBest id difficultyLevel rack =
      bestLoop ((List.range' 0 rack.length).map
        (moveScore id difficultyLevel rack)) 0 (-100000000) [] := by
    rw [pickMoveBest, pickMoveScores, List.range_eq_range']
  obtain ⟨S1, S2, S3, S4⟩ := bestLoop_spec (moveScore id difficultyLevel rack)
    rack.length 0 (-100000000) [] (by simp)
  rw [hrw]
  constructor
  · obtain ⟨i, hi, hopen⟩ := hlegal
    obtain ⟨s, hs, hlo, -⟩ := moveScore_of_open id difficultyLevel rack hopen
    exact S4 (Or.inr ⟨i, Nat.zero_le i, by omega, s, hs, by omega⟩)
  · intro c hc
    have hsc := S3 c hc
    obtain ⟨hclen, hcopen, top, htop, hval⟩ :=
      moveScore_eq_some id difficultyLevel rack hsc
    refine ⟨hclen, hcopen, ⟨top, htop, hval.symm⟩, ?_⟩
    intro j hj s hs
    exact S2 j (Nat.zero_le j) (by omega) s hs

/-- Witness for C1 on the 2-column, 1-row empty rack at difficulty 1. -/
theorem pick_move_correct_witness :
    ((1 : Int) = 1 ∨ (1 : Int) = 2) ∧
      (∃ i, i < 2 ∧ colOpen ([[(0 : Int)], [0]].getD i []) = true) ∧
      (pickMoveBest 1 1 [[(0 : Int)], [0]]).2 ≠ [] ∧
      (∀ c ∈ (pickMoveBest 1 1 [[(0 : Int)], [0]]).2,
        c < 2 ∧ colOpen ([[(0 : Int)], [0]].getD c []) = true ∧
        (∃ top, findTopSpotOpen ([[(0 : Int)], [0]].getD c []) = some top ∧
          -(minimaxABP (flipPlayer 1) (setCell [[(0 : Int)], [0]] c top 1)
              (1 - 1) (-100000000) 100000000) =
            (pickMoveBest 1 1 [[(0 : Int)], [0]]).1) ∧
        ∀ j < 2, ∀ s, moveScore 1 1 [[(0 : Int)], [0]] j = some s →
          s ≤ (pickMoveBest 1 1 [[(0 : Int)], [0]]).1) := by
  have h := pick_move_correct 1 1 (Or.inl rfl) [[(0 : Int)], [0]]
    ⟨0, by norm_num, by decide⟩
  exact ⟨Or.inl rfl, ⟨0, by norm_num, by decide⟩, h.1, h.2⟩

/-! ## Claim C7 — strict simulate/recurse/undo discipline -/

/-- Overwriting an entry with its own value is the identity. -/
theorem list_set_self {α : Type} (l : List α) (n : Nat) (h : n < l.length) :
    l.set n l[n] = l := by
  apply List.ext_getElem
  · simp
  · intro i h1 h2
    rw [List.getElem_set]
    split
    · subst i; rfl
    · rfl

/-- Undoing a hypothetical drop restores the board: if cell `(i, row)` was
unowned, setting it and then clearing it is the identity. -/
theorem setCell_undo (board : Board) (i row : Nat) (v : Int)
    (hrow : row < (board.getD i []).length)
    (hcell : (board.getD i []).getD row 1 = 0) :
    setCell (setCell board i row v) i row 0 = board := by
  by_cases hi : i < board.length
  · have hcol : (setCell board i row v).getD i [] = (board.getD i []).set row v := by
      rw [setCell, List.getD_eq_getElem _ _ (by simpa using hi),
        List.getElem_set_self]
    have h0 : (board.getD i []).set row 0 = board.getD i [] := by
      have hv : (board.getD i [])[row] = 0 := by
        rw [List.getD_eq_getElem _ _ hrow] at hcell
        exact hcell
      calc (board.getD i []).set row 0
          = (board.getD i []).set row (board.getD i [])[row] := by rw [hv]
        _ = board.getD i [] := list_set_self _ _ hrow
    show (setCell board i row v).set i
      (((setCell board i row v).getD i []).set row 0) = board
    rw [hcol, List.set_set, h0, setCell, List.set_set,
      List.getD_eq_getElem _ _ hi]
    exact list_set_self _ _ hi
  · have h1 : setCell board i row v = board := by
      rw [setCell, List.set_eq_of_length_le (by omega)]
    rw [h1, setCell, List.set_eq_of_length_le (by omega)]

/-- The stateful alpha-beta column loop computes the pure loop's value and
hands back the board it was given: every hypothetically occupied cell is
reset on every exit path, including the early `break`. -/
theorem abpLoopSt_eq (childSt : Board → Int → Int → Int × Board)
    (child : Board → Int → Int → Int) (id : Int)
    (hrel : ∀ b a2 b2, childSt b a2 b2 = (child b a2 b2, b))
    (cols : List Nat) :
    ∀ (board : Board) (best alpha beta : Int),
      abpLoopSt childSt id board cols best alpha beta =
        (abpLoop child id board cols best alpha beta, board) := by
  induction cols with
  | nil => intro board best alpha beta; rfl
  | cons i rest ih =>
    intro board best alpha beta
    simp only [abpLoopSt, abpLoop]
    by_cases hopen : colOpen (board.getD i []) = true
    · rw [if_pos hopen, if_pos hopen]
      cases hf : findTopSpotOpen (board.getD i []) with
      | none => exact ih board best alpha beta
      | some row =>
        obtain ⟨hrow, hcell, -⟩ := findTopSpotOpen_eq_some_iff.mp hf
        have hundo : setCell (setCell board i row id) i row 0 = board :=
          setCell_undo board i row id hrow hcell
        simp only [hrel, hundo]
        split
        · rfl
        · exact ih board _ _ beta
    · rw [if_neg hopen, if_neg hopen]
      exact ih board best alpha beta

/-- The stateful alpha-beta search computes the pure search's value and
returns the board exactly as it was on entry. -/
theorem minimaxABPNSt_eq (n : Nat) (id : Int) (board : Board)
    (alpha beta : Int) :
    minimaxABPNSt id board n alpha beta =
      (minimaxABPN id board n alpha beta, board) := by
  induction n generalizing id board alpha beta with
  | zero => rfl
  | succ n ih =>
    have hloop := abpLoopSt_eq
      (fun b a' b' => minimaxABPNSt (flipPlayer id) b n a' b')
      (fun b a' b' => minimaxABPN (flipPlayer id) b n a' b') id
      (fun b a2 b2 => ih (flipPlayer id) b a2 b2)
      (List.range board.length) board (-100000000) alpha beta
    simp only [minimaxABPNSt, minimaxABPN, hloop]
    split_ifs <;> rfl

/-- The stateful score-collecting loop of `pick_move` computes the pure
scores and leaves `imaginary_board` (started as the copy of `rack`) equal
to `rack`. -/
theorem pickMoveScoresSt_eq (id lvl : Int) (rack : Board) :
    ∀ (cols : List Nat) (scores : List (Option Int)),
      pickMoveScoresSt id lvl rack rack cols scores =
        (scores ++ cols.map (moveScore id lvl rack), rack) := by
  intro cols
  induction cols with
  | nil => intro scores; simp [pickMoveScoresSt]
  | cons i rest ih =>
    intro scores
    simp only [pickMoveScoresSt, List.map_cons]
    by_cases hopen : colOpen (rack.getD i []) = true
    · rw [if_pos hopen]
      cases hf : findTopSpotOpen (rack.getD i []) with
      | none =>
        have hms : moveScore id lvl rack i = none := by
          rw [moveScore, if_pos hopen, hf]
        rw [ih (scores ++ [none]), hms]
        simp
      | some top =>
        obtain ⟨hrow, hcell, -⟩ := findTopSpotOpen_eq_some_iff.mp hf
        have hundo : setCell (setCell rack i top id) i top 0 = rack :=
          setCell_undo rack i top id hrow hcell
        simp only [minimaxABPNSt_eq, hundo]
        rw [ih (scores ++ [some _])]
        simp only [moveScore, if_pos hopen, hf, minimaxABP, List.append_assoc,
          List.singleton_append]
    · have hms : moveScore id lvl rack i = none := by
        rw [moveScore, if_neg hopen]
      rw [if_neg hopen, ih (scores ++ [none]), hms]
      simp

/-- C7: no observable mutation during a decision — the alpha-beta search
returns with the shared board in exactly the state it had on entry (every
hypothetically occupied cell is reset on every exit path, including the
early `break`), and `pick_move`'s scoring loop leaves its working copy of
the rack — hence the rack — unchanged while computing the recorded
scores. -/
theorem no_observable_mutation :
    (∀ (id : Int) (board : Board) (n : Nat) (alpha beta : Int),
      minimaxABPNSt id board n alpha beta =
        (minimaxABPN id board n alpha beta, board)) ∧
    (∀ (id lvl : Int) (rack : Board),
      pickMoveScoresSt id lvl rack rack (List.range rack.length) [] =
        (pickMoveScores id lvl rack, rack)) := by
  refine ⟨fun id board n alpha beta => minimaxABPNSt_eq n id board alpha beta,
    fun id lvl rack => ?_⟩
  rw [pickMoveScoresSt_eq id lvl rack (List.range rack.length) []]
  simp [pickMoveScores]

/-! ## Claim C8 — per-window scoring, exactly-once examination, clamp -/

/-- The vertical windows examined by `_eval_function`, in loop order. -/
def vertWindows (rack : Board) : List (List (Nat × Nat)) :=
  (List.range rack.length).flatMap fun i =>
    (List.range ((rack.getD i []).length - 3)).map fun j =>
      [(i, j), (i, j+1), (i, j+2), (i, j+3)]

/-- The horizontal windows examined by `_eval_function`, in loop order. -/
def horizWindows (rack : Board) : List (List (Nat × Nat)) :=
  (List.range (rack.length - 3)).flatMap fun i =>
    (List.range ((rack.getD i []).length)).map fun j =>
      [(i, j), (i+1, j), (i+2, j), (i+3, j)]

/-- The north-east diagonal windows examined by `_eval_function`. -/
def neWindows (rack : Board) : List (List (Nat × Nat)) :=
  (List.range (rack.length - 3)).flatMap fun i =>
    (List.range ((rack.getD i []).length - 3)).map fun j =>
      [(i, j), (i+1, j+1), (i+2, j+2), (i+3, j+3)]

/-- The north-west diagonal windows examined by `_eval_function`. -/
def nwWindows (rack : Board) : List (List (Nat × Nat)) :=
  (List.range (rack.length - 3)).flatMap fun i =>
    (List.range ((rack.getD i []).length - 3)).map fun j =>
      [(i, j+3), (i+1, j+2), (i+2, j+1), (i+3, j)]

/-- All windows examined by `_eval_function`, in examination order. -/
def allWindows (rack : Board) : List (List (Nat × Nat)) :=
  vertWindows rack ++ horizWindows rack ++ neWindows rack ++ nwWindows rack

/-- The per-window contribution as the spec words it: count the evaluating
player's and the opponent's cells in the window; a window with cells of
both players; or of neither, contributes 0; otherwise the owner's count `n`
gives magnitude 1, 10, 100, 10,000,000 for `n` = 1, 2, 3, 4, positive
exactly when the evaluating player owns the window. -/
def windowContributionSpec (p : Int) (rack : Board)
    (w : List (Nat × Nat)) : Int :=
  let mine := (w.filter (fun q => getCell rack q.1 q.2 == p)).length
  let theirs := (w.filter (fun q => getCell rack q.1 q.2 == flipPlayer p)).length
  if mine > 0 ∧ theirs > 0 then 0
  else if mine = 0 ∧ theirs = 0 then 0
  else
    let n := max mine theirs
    let mag : Int :=
      if n = 1 then 1 else if n = 2 then 10 else if n = 3 then 100
      else 10000000
    if mine > 0 then mag else -mag

set_option maxHeartbeats 1000000 in
/-- On 4-cell windows and a valid player identity, `_score_list` computes
exactly the spec's per-window contribution. -/
theorem scoreList_eq_windowContributionSpec (p : Int) (hp : p = 1 ∨ p = 2)
    (rack : Board) (w : List (Nat × Nat)) (hw : w.length = 4) :
    scoreList p rack w = windowContributionSpec p rack w := by
  have h1 : (w.filter (fun q => getCell rack q.1 q.2 == 1)).length ≤ 4 :=
    hw ▸ List.length_filter_le _ _
  have h2 : (w.filter (fun q => getCell rack q.1 q.2 == 2)).length ≤ 4 :=
    hw ▸ List.length_filter_le _ _
  rcases hp with rfl | rfl
  · have hflip : flipPlayer (1 : Int) = 2 := by norm_num [flipPlayer]
    have e1 : ((1 : Int) = 2) ↔ False := by norm_num
    have e2 : ((1 : Int) = 1) ↔ True := by norm_num
    simp only [scoreList, windowContributionSpec, hflip, e1, e2, and_false,
      and_true, false_or, or_false]
    split_ifs <;> omega
  · have hflip : flipPlayer (2 : Int) = 1 := by norm_num [flipPlayer]
    have e1 : ((2 : Int) = 2) ↔ True := by norm_num
    have e2 : ((2 : Int) = 1) ↔ False := by norm_num
    simp only [scoreList, windowContributionSpec, hflip, e1, e2, and_false,
      and_true, false_or, or_false]
    split_ifs <;> omega

/-- Flattening a sum over a nested generation of windows. -/
theorem sum_flatMap {α : Type} (outer : List Nat) (f : Nat → List α)
    (g : α → Int) :
    (((outer.flatMap f).map g)).sum
      = ((outer.map fun i => (((f i).map g)).sum)).sum := by
  induction outer with
  | nil => simp
  | cons a t ih => simp [List.flatMap_cons, ih]

/-- The raw evaluation is the sum of `_score_list` over the window list. -/
theorem rawEval_eq_sum_allWindows (p : Int) (rack : Board) :
    rawEval p rack = ((allWindows rack).map (scoreList p rack)).sum := by
  simp only [allWindows, List.map_append, List.sum_append, vertWindows,
    horizWindows, neWindows, nwWindows, sum_flatMap, List.map_map,
    rawEval, rawEvalVert, rawEvalHoriz, rawEvalDiagNE, rawEvalDiagNW,
    Function.comp]
  rfl

/-- Every examined window has exactly four cells. -/
theorem length_four_of_mem_allWindows {rack : Board} {w : List (Nat × Nat)}
    (h : w ∈ allWindows rack) : w.length = 4 := by
  simp only [allWindows, List.mem_append, vertWindows, horizWindows,
    neWindows, nwWindows, List.mem_flatMap, List.mem_map] at h
  rcases h with ((⟨i, -, j, -, rfl⟩ | ⟨i, -, j, -, rfl⟩) | ⟨i, -, j, -, rfl⟩)
    | ⟨i, -, j, -, rfl⟩ <;> rfl

/-- A doubly indexed window family with jointly injective patterns has no
duplicate windows. -/
theorem nodup_flatMap_map (outer : List Nat) (inner : Nat → List Nat)
    (pat : Nat → Nat → List (Nat × Nat))
    (houter : outer.Nodup) (hinner : ∀ i, (inner i).Nodup)
    (hinj : ∀ i j i' j', pat i j = pat i' j' → i = i' ∧ j = j') :
    (outer.flatMap fun i => (inner i).map (pat i)).Nodup := by
  rw [List.nodup_flatMap]
  constructor
  · intro i _
    exact (hinner i).map (fun a b hab => (hinj i a i b hab).2)
  · have hdis : ∀ i i', i ≠ i' →
        List.Disjoint ((inner i).map (pat i)) ((inner i').map (pat i')) := by
      intro i i' hne w hw hw'
      obtain ⟨j, -, rfl⟩ := List.mem_map.mp hw
      obtain ⟨j', -, heq⟩ := List.mem_map.mp hw'
      exact hne (hinj i j i' j' heq.symm).1
    exact houter.imp (fun hne => hdis _ _ hne)

theorem vertWindows_nodup (rack : Board) : (vertWindows rack).Nodup := by
  apply nodup_flatMap_map _ _ _ (List.nodup_range _) (fun _ => List.nodup_range _)
  intro i j i' j' h
  simp only [List.cons.injEq, Prod.mk.injEq, and_true] at h
  omega

theorem horizWindows_nodup (rack : Board) : (horizWindows rack).Nodup := by
  apply nodup_flatMap_map _ _ _ (List.nodup_range _) (fun _ => List.nodup_range _)
  intro i j i' j' h
  simp only [List.cons.injEq, Prod.mk.injEq, and_true] at h
  omega

theorem neWindows_nodup (rack : Board) : (neWindows rack).Nodup := by
  apply nodup_flatMap_map _ _ _ (List.nodup_range _) (fun _ => List.nodup_range _)
  intro i j i' j' h
  simp only [List.cons.injEq, Prod.mk.injEq, and_true] at h
  omega

theorem nwWindows_nodup (rack : Board) : (nwWindows rack).Nodup := by
  apply nodup_flatMap_map _ _ _ (List.nodup_range _) (fun _ => List.nodup_range _)
  intro i j i' j' h
  simp only [List.cons.injEq, Prod.mk.injEq, and_true] at h
  omega

theorem mem_vertWindows {rack : Board} {w : List (Nat × Nat)} :
    w ∈ vertWindows rack ↔ ∃ i j, i < rack.length ∧
      j < (rack.getD i []).length - 3 ∧
      w = [(i, j), (i, j+1), (i, j+2), (i, j+3)] := by
  simp only [vertWindows, List.mem_flatMap, List.mem_map, List.mem_range]
  constructor
  · rintro ⟨i, hi, j, hj, rfl⟩
    exact ⟨i, j, hi, hj, rfl⟩
  · rintro ⟨i, j, hi, hj, rfl⟩
    exact ⟨i, hi, j, hj, rfl⟩

theorem mem_horizWindows {rack : Board} {w : List (Nat × Nat)} :
    w ∈ horizWindows rack ↔ ∃ i j, i < rack.length - 3 ∧
      j < (rack.getD i []).length ∧
      w = [(i, j), (i+1, j), (i+2, j), (i+3, j)] := by
  simp only [horizWindows, List.mem_flatMap, List.mem_map, List.mem_range]
  constructor
  · rintro ⟨i, hi, j, hj, rfl⟩
    exact ⟨i, j, hi, hj, rfl⟩
  · rintro ⟨i, j, hi, hj, rfl⟩
    exact ⟨i, hi, j, hj, rfl⟩

theorem mem_neWindows {rack : Board} {w : List (Nat × Nat)} :
    w ∈ neWindows rack ↔ ∃ i j, i < rack.length - 3 ∧
      j < (rack.getD i []).length - 3 ∧
      w = [(i, j), (i+1, j+1), (i+2, j+2), (i+3, j+3)] := by
  simp only [neWindows, List.mem_flatMap, List.mem_map, List.mem_range]
  constructor
  · rintro ⟨i, hi, j, hj, rfl⟩
    exact ⟨i, j, hi, hj, rfl⟩
  · rintro ⟨i, j, hi, hj, rfl⟩
    exact ⟨i, hi, j, hj, rfl⟩

theorem mem_nwWindows {rack : Board} {w : List (Nat × Nat)} :
    w ∈ nwWindows rack ↔ ∃ i j, i < rack.length - 3 ∧
      j < (rack.getD i []).length - 3 ∧
      w = [(i, j+3), (i+1, j+2), (i+2, j+1), (i+3, j)] := by
  simp only [nwWindows, List.mem_flatMap, List.mem_map, List.mem_range]
  constructor
  · rintro ⟨i, hi, j, hj, rfl⟩
    exact ⟨i, j, hi, hj, rfl⟩
  · rintro ⟨i, j, hi, hj, rfl⟩
    exact ⟨i, hi, j, hj, rfl⟩

/-- No window is generated twice: the four window families are internally
duplicate-free and mutually disjoint (their cell patterns differ in the
step between the first two cells). -/
theorem allWindows_nodup (rack : Board) : (allWindows rack).Nodup := by
  have hv := vertWindows_nodup rack
  have hh := horizWindows_nodup rack
  have hne := neWindows_nodup rack
  have hnw := nwWindows_nodup rack
  have dvh : (vertWindows rack).Disjoint (horizWindows rack) := by
    intro w hw hw'
    obtain ⟨i, j, -, -, rfl⟩ := mem_vertWindows.mp hw
    obtain ⟨a, b, -, -, heq⟩ := mem_horizWindows.mp hw'
    simp only [List.cons.injEq, Prod.mk.injEq] at heq
    omega
  have dvne : (vertWindows rack).Disjoint (neWindows rack) := by
    intro w hw hw'
    obtain ⟨i, j, -, -, rfl⟩ := mem_vertWindows.mp hw
    obtain ⟨a, b, -, -, heq⟩ := mem_neWindows.mp hw'
    simp only [List.cons.injEq, Prod.mk.injEq] at heq
    omega
  have dvnw : (vertWindows rack).Disjoint (nwWindows rack) := by
    intro w hw hw'
    obtain ⟨i, j, -, -, rfl⟩ := mem_vertWindows.mp hw
    obtain ⟨a, b, -, -, heq⟩ := mem_nwWindows.mp hw'
    simp only [List.cons.injEq, Prod.mk.injEq] at heq
    omega
  have dhne : (horizWindows rack).Disjoint (neWindows rack) := by
    intro w hw hw'
    obtain ⟨i, j, -, -, rfl⟩ := mem_horizWindows.mp hw
    obtain ⟨a, b, -, -, heq⟩ := mem_neWindows.mp hw'
    simp only [List.cons.injEq, Prod.mk.injEq] at heq
    omega
  have dhnw : (horizWindows rack).Disjoint (nwWindows rack) := by
    intro w hw hw'
    obtain ⟨i, j, -, -, rfl⟩ := mem_horizWindows.mp hw
    obtain ⟨a, b, -, -, heq⟩ := mem_nwWindows.mp hw'
    simp only [List.cons.injEq, Prod.mk.injEq] at heq
    omega
  have dnenw : (neWindows rack).Disjoint (nwWindows rack) := by
    intro w hw hw'
    obtain ⟨i, j, -, -, rfl⟩ := mem_neWindows.mp hw
    obtain ⟨a, b, -, -, heq⟩ := mem_nwWindows.mp hw'
    simp only [List.cons.injEq, Prod.mk.injEq] at heq
    omega
  rw [allWindows, List.append_assoc, List.append_assoc]
  rw [List.nodup_append]
  refine ⟨hv, ?_, ?_⟩
  · rw [List.nodup_append]
    refine ⟨hh, ?_, ?_⟩
    · rw [List.nodup_append]
      exact ⟨hne, hnw, dnenw⟩
    · intro w hw hw'
      rcases List.mem_append.mp hw' with h' | h'
      · exact dhne hw h'
      · exact dhnw hw h'
  · intro w hw hw'
    rcases List.mem_append.mp hw' with h' | h'
    · exact dvh hw h'
    · rcases List.mem_append.mp h' with h'' | h''
      · exact dvne hw h''
      · exact dvnw hw h''

/-- C8: for racks over `{0,1,2}` and a valid player identity,
`_eval_function` examines each 4-cell window (vertical, horizontal, both
diagonals, as enumerated by `allWindows`) exactly once, each contributing
the spec's per-window value (0 if contested or empty; magnitude 1, 10, 100,
10,000,000 by the owner's cell count, positive iff the evaluating player
owns it); the result is the raw sum if it lies in `[-100000, 100000]`,
exactly `10000000` if the raw sum exceeds `100000`, and exactly `-10000000`
below `-100000`. -/
theorem evalFunction_per_window_spec (p : Int) (hp : p = 1 ∨ p = 2)
    (rack : Board)
    (_hcells : ∀ col ∈ rack, ∀ c ∈ col, c = 0 ∨ c = 1 ∨ c = 2) :
    (allWindows rack).Nodup ∧
    (∀ w, w ∈ allWindows rack ↔
      ((∃ i j, i < rack.length ∧ j < (rack.getD i []).length - 3 ∧
          w = [(i, j), (i, j+1), (i, j+2), (i, j+3)]) ∨
       (∃ i j, i < rack.length - 3 ∧ j < (rack.getD i []).length ∧
          w = [(i, j), (i+1, j), (i+2, j), (i+3, j)]) ∨
       (∃ i j, i < rack.length - 3 ∧ j < (rack.getD i []).length - 3 ∧
          w = [(i, j), (i+1, j+1), (i+2, j+2), (i+3, j+3)]) ∨
       (∃ i j, i < rack.length - 3 ∧ j < (rack.getD i []).length - 3 ∧
          w = [(i, j+3), (i+1, j+2), (i+2, j+1), (i+3, j)]))) ∧
    rawEval p rack
      = ((allWindows rack).map (windowContributionSpec p rack)).sum ∧
    evalFunction p rack =
      (if ((allWindows rack).map (windowContributionSpec p rack)).sum > 100000
       then 10000000
       else if ((allWindows rack).map (windowContributionSpec p rack)).sum
          < -100000 then -10000000
       else ((allWindows rack).map (windowContributionSpec p rack)).sum) := by
  have hsum : rawEval p rack
      = ((allWindows rack).map (windowContributionSpec p rack)).sum := by
    rw [rawEval_eq_sum_allWindows]
    congr 1
    apply List.map_congr_left
    intro w hw
    exact scoreList_eq_windowContributionSpec p hp rack w
      (length_four_of_mem_allWindows hw)
  refine ⟨allWindows_nodup rack, ?_, hsum, ?_⟩
  · intro w
    rw [allWindows]
    simp only [List.mem_append]
    rw [mem_vertWindows, mem_horizWindows, mem_neWindows, mem_nwWindows,
      or_assoc, or_assoc]
  · simp only [evalFunction]
    rw [hsum]

/-- Witness for C8 at `p = 1` on the standard empty 4×4 corner of a rack. -/
theorem evalFunction_per_window_spec_witness :
    ((1 : Int) = 1 ∨ (1 : Int) = 2) ∧
      (∀ col ∈ makeRack 4 4, ∀ c ∈ col, c = 0 ∨ c = 1 ∨ c = 2) ∧
      (allWindows (makeRack 4 4)).Nodup ∧
      rawEval 1 (makeRack 4 4)
        = ((allWindows (makeRack 4 4)).map
            (windowContributionSpec 1 (makeRack 4 4))).sum :=
  ⟨Or.inl rfl, by decide,
    (evalFunction_per_window_spec 1 (Or.inl rfl) (makeRack 4 4) (by decide)).1,
    (evalFunction_per_window_spec 1 (Or.inl rfl) (makeRack 4 4) (by decide)).2.2.1⟩

/-! ## Claim C3 — `find_win` endpoints -/

/-- The top-down scan of `find_win` finds the highest owned cell. -/
theorem findTopRowAux_eq_some {col : List Int} :
    ∀ {n r : Nat}, findTopRowAux col n = some r → r < n ∧ col.getD r 0 ≠ 0 := by
  intro n
  induction n with
  | zero => intro r h; cases h
  | succ n ih =>
    intro r h
    rw [findTopRowAux] at h
    by_cases hc : (col.getD n 0 == 0) = true
    · rw [if_pos hc] at h
      obtain ⟨h1, h2⟩ := ih h
      exact ⟨by omega, h2⟩
    · rw [if_neg hc] at h
      cases h
      refine ⟨by omega, ?_⟩
      simpa using hc

/-- Invariants of the leftward extension of `find_win`'s horizontal scan:
it never passes the start, every cell strictly between the result and the
start holds the player's disc, and it stops only at the wall or at a
foreign cell. -/
theorem extendLeft_spec (rack : Board) (player : Int) (row : Nat) :
    ∀ c0, extendLeft rack player row c0 ≤ c0 ∧
      (∀ k, extendLeft rack player row c0 ≤ k → k < c0 →
        getCell rack k row = player) ∧
      (extendLeft rack player row c0 = 0 ∨
        getCell rack (extendLeft rack player row c0 - 1) row ≠ player) := by
  intro c0
  induction c0 with
  | zero => exact ⟨le_rfl, fun k h1 h2 => by omega, Or.inl rfl⟩
  | succ c ih =>
    by_cases h : (getCell rack c row == player) = true
    · have hstep : extendLeft rack player row (c + 1)
          = extendLeft rack player row c := by
        rw [extendLeft, if_pos h]
      rw [hstep]
      obtain ⟨ih1, ih2, ih3⟩ := ih
      refine ⟨by omega, ?_, ih3⟩
      intro k h1 h2
      rcases Nat.lt_or_ge k c with hk | hk
      · exact ih2 k h1 hk
      · have : k = c := by omega
        subst this
        simpa using h
    · have hstep : extendLeft rack player row (c + 1) = c + 1 := by
        rw [extendLeft, if_neg h]
      rw [hstep]
      refine ⟨le_rfl, fun k h1 h2 => by omega, Or.inr ?_⟩
      simpa using h

/-- Invariants of the rightward extension of `find_win`'s horizontal scan. -/
theorem extendRight_spec (rack : Board) (player : Int) (row numCols : Nat) :
    ∀ d0, d0 ≤ extendRight rack player row numCols d0 ∧
      (∀ k, d0 < k → k ≤ extendRight rack player row numCols d0 →
        getCell rack k row = player) ∧
      (extendRight rack player row numCols d0 < numCols - 1 →
        getCell rack (extendRight rack player row numCols d0 + 1) row ≠ player) ∧
      (d0 < numCols → extendRight rack player row numCols d0 < numCols) := by
  have H : ∀ rem d0, rem = numCols - 1 - d0 →
      d0 ≤ extendRightAux rack player row rem d0 ∧
      (∀ k, d0 < k → k ≤ extendRightAux rack player row rem d0 →
        getCell rack k row = player) ∧
      (extendRightAux rack player row rem d0 < numCols - 1 →
        getCell rack (extendRightAux rack player row rem d0 + 1) row ≠ player) ∧
      (d0 < numCols → extendRightAux rack player row rem d0 < numCols) := by
    intro rem
    induction rem with
    | zero =>
      intro d0 h0
      have hstep : extendRightAux rack player row 0 d0 = d0 := rfl
      rw [hstep]
      exact ⟨le_rfl, fun k h1 h2 => by omega, fun h => by omega, fun h => h⟩
    | succ rem ih =>
      intro d0 h0
      by_cases hcell : (getCell rack (d0 + 1) row == player) = true
      · have hstep : extendRightAux rack player row (rem + 1) d0
            = extendRightAux rack player row rem (d0 + 1) := by
          rw [extendRightAux, if_pos hcell]
        rw [hstep]
        obtain ⟨ih1, ih2, ih3, ih4⟩ := ih (d0 + 1) (by omega)
        refine ⟨by omega, ?_, ih3, fun _ => ih4 (by omega)⟩
        intro k h1 h2
        rcases Nat.lt_or_ge (d0 + 1) k with hk | hk
        · exact ih2 k hk h2
        · have hk' : k = d0 + 1 := by omega
          subst hk'
          simpa using hcell
      · have hstop : extendRightAux rack player row (rem + 1) d0 = d0 := by
          rw [extendRightAux, if_neg hcell]
        rw [hstop]
        refine ⟨le_rfl, fun k h1 h2 => by omega, fun _ => by simpa using hcell,
          fun _ => by omega⟩
  intro d0
  exact H (numCols - 1 - d0) d0 rfl

/-- Invariants of the down-left extension of the forward-diagonal scan. -/
theorem extendDL_spec (rack : Board) (player : Int) :
    ∀ c0 r0, (extendDL rack player c0 r0).1 ≤ c0 ∧
      (extendDL rack player c0 r0).2 ≤ r0 ∧
      c0 - (extendDL rack player c0 r0).1
        = r0 - (extendDL rack player c0 r0).2 ∧
      (∀ t, t < c0 - (extendDL rack player c0 r0).1 →
        getCell rack ((extendDL rack player c0 r0).1 + t)
          ((extendDL rack player c0 r0).2 + t) = player) ∧
      ((extendDL rack player c0 r0).1 = 0 ∨
        (extendDL rack player c0 r0).2 = 0 ∨
        getCell rack ((extendDL rack player c0 r0).1 - 1)
          ((extendDL rack player c0 r0).2 - 1) ≠ player) := by
  intro c0
  induction c0 with
  | zero =>
    intro r0
    have hstep : extendDL rack player 0 r0 = (0, r0) := rfl
    simp only [hstep]
    exact ⟨le_rfl, le_rfl, by omega, fun t ht => by omega, Or.inl trivial⟩
  | succ c ih =>
    intro r0
    cases r0 with
    | zero =>
      have hstep : extendDL rack player (c + 1) 0 = (c + 1, 0) := rfl
      simp only [hstep]
      exact ⟨le_rfl, le_rfl, by omega, fun t ht => by omega,
        Or.inr (Or.inl trivial)⟩
    | succ r =>
      by_cases h : (getCell rack c r == player) = true
      · have hstep : extendDL rack player (c + 1) (r + 1)
            = extendDL rack player c r := by
          rw [extendDL, if_pos h]
        rw [hstep]
        obtain ⟨ih1, ih2, ih3, ih4, ih5⟩ := ih r
        refine ⟨by omega, by omega, by omega, ?_, ih5⟩
        intro t ht
        rcases Nat.lt_or_ge t (c - (extendDL rack player c r).1) with hk | hk
        · exact ih4 t hk
        · have ht1 : (extendDL rack player c r).1 + t = c := by omega
          have ht2 : (extendDL rack player c r).2 + t = r := by omega
          rw [ht1, ht2]
          simpa using h
      · have hstep : extendDL rack player (c + 1) (r + 1) = (c + 1, r + 1) := by
          rw [extendDL, if_neg h]
        simp only [hstep]
        refine ⟨le_rfl, le_rfl, by omega, fun t ht => by omega,
          Or.inr (Or.inr ?_)⟩
        simpa using h

/-- Invariants of the up-right extension of the forward-diagonal scan. -/
theorem extendUR_spec (rack : Board) (player : Int) (numCols numRows : Nat) :
    ∀ d0 s0, d0 ≤ (extendUR rack player numCols numRows d0 s0).1 ∧
      (extendUR rack player numCols numRows d0 s0).1 - d0
        = (extendUR rack player numCols numRows d0 s0).2 - s0 ∧
      s0 ≤ (extendUR rack player numCols numRows d0 s0).2 ∧
      (∀ k, d0 < k → k ≤ (extendUR rack player numCols numRows d0 s0).1 →
        getCell rack k (s0 + (k - d0)) = player) ∧
      (((extendUR rack player numCols numRows d0 s0).1 < numCols - 1 ∧
          (extendUR rack player numCols numRows d0 s0).2 < numRows - 1) →
        getCell rack ((extendUR rack player numCols numRows d0 s0).1 + 1)
          ((extendUR rack player numCols numRows d0 s0).2 + 1) ≠ player) ∧
      (d0 < numCols → (extendUR rack player numCols numRows d0 s0).1 < numCols) := by
  have H : ∀ rem d0 s0, rem = numCols - 1 - d0 →
      d0 ≤ (extendURAux rack player numRows rem d0 s0).1 ∧
      (extendURAux rack player numRows rem d0 s0).1 - d0
        = (extendURAux rack player numRows rem d0 s0).2 - s0 ∧
      s0 ≤ (extendURAux rack player numRows rem d0 s0).2 ∧
      (∀ k, d0 < k → k ≤ (extendURAux rack player numRows rem d0 s0).1 →
        getCell rack k (s0 + (k - d0)) = player) ∧
      (((extendURAux rack player numRows rem d0 s0).1 < numCols - 1 ∧
          (extendURAux rack player numRows rem d0 s0).2 < numRows - 1) →
        getCell rack ((extendURAux rack player numRows rem d0 s0).1 + 1)
          ((extendURAux rack player numRows rem d0 s0).2 + 1) ≠ player) ∧
      (d0 < numCols →
        (extendURAux rack player numRows rem d0 s0).1 < numCols) := by
    intro rem
    induction rem with
    | zero =>
      intro d0 s0 h0
      have hstep : extendURAux rack player numRows 0 d0 s0 = (d0, s0) := rfl
      simp only [hstep]
      exact ⟨le_rfl, by omega, le_rfl, fun k h1 h2 => by omega,
        fun h => absurd h.1 (by omega), fun h => h⟩
    | succ rem ih =>
      intro d0 s0 h0
      by_cases hg : s0 < numRows - 1 ∧
          (getCell rack (d0 + 1) (s0 + 1) == player) = true
      · have hstep : extendURAux rack player numRows (rem + 1) d0 s0
            = extendURAux rack player numRows rem (d0 + 1) (s0 + 1) := by
          rw [extendURAux, if_pos hg]
        rw [hstep]
        obtain ⟨ih1, ih2, ih3, ih4, ih5, ih6⟩ := ih (d0 + 1) (s0 + 1) (by omega)
        refine ⟨by omega, by omega, by omega, ?_, ih5, fun _ => ih6 (by omega)⟩
        intro k h1 h2
        rcases Nat.lt_or_ge (d0 + 1) k with hk | hk
        · have hidx : s0 + (k - d0) = s0 + 1 + (k - (d0 + 1)) := by omega
          rw [hidx]
          exact ih4 k hk h2
        · have hk' : k = d0 + 1 := by omega
          subst hk'
          have hidx : s0 + (d0 + 1 - d0) = s0 + 1 := by omega
          rw [hidx]
          simpa using hg.2
      · have hstop : extendURAux rack player numRows (rem + 1) d0 s0
            = (d0, s0) := by
          rw [extendURAux, if_neg hg]
        simp only [hstop]
        refine ⟨le_rfl, by omega, le_rfl, fun k h1 h2 => by omega,
          fun hpre => ?_, fun h => h⟩
        rcases Decidable.not_and_iff_or_not.mp hg with h' | h'
        · exact absurd hpre.2 h'
        · simpa using h'
  intro d0 s0
  exact H (numCols - 1 - d0) d0 s0 rfl

/-- Invariants of the up-left extension of the backward-diagonal scan. -/
theorem extendUL_spec (rack : Board) (player : Int) (numRows : Nat) :
    ∀ c0 r0, (extendUL rack player numRows c0 r0).1 ≤ c0 ∧
      r0 ≤ (extendUL rack player numRows c0 r0).2 ∧
      c0 - (extendUL rack player numRows c0 r0).1
        = (extendUL rack player numRows c0 r0).2 - r0 ∧
      (∀ t, t < c0 - (extendUL rack player numRows c0 r0).1 →
        getCell rack ((extendUL rack player numRows c0 r0).1 + t)
          ((extendUL rack player numRows c0 r0).2 - t) = player) ∧
      ((extendUL rack player numRows c0 r0).1 = 0 ∨
        ¬ (extendUL rack player numRows c0 r0).2 < numRows - 1 ∨
        getCell rack ((extendUL rack player numRows c0 r0).1 - 1)
          ((extendUL rack player numRows c0 r0).2 + 1) ≠ player) ∧
      (r0 < numRows → (extendUL rack player numRows c0 r0).2 < numRows) := by
  intro c0
  induction c0 with
  | zero =>
    intro r0
    have hstep : extendUL rack player numRows 0 r0 = (0, r0) := rfl
    simp only [hstep]
    exact ⟨le_rfl, le_rfl, by omega, fun t ht => by omega, Or.inl trivial,
      fun h => h⟩
  | succ c ih =>
    intro r0
    by_cases h : r0 < numRows - 1 ∧ (getCell rack c (r0 + 1) == player) = true
    · have hstep : extendUL rack player numRows (c + 1) r0
          = extendUL rack player numRows c (r0 + 1) := by
        rw [extendUL, if_pos h]
      rw [hstep]
      obtain ⟨ih1, ih2, ih3, ih4, ih5, ih6⟩ := ih (r0 + 1)
      refine ⟨by omega, by omega, by omega, ?_, ih5, fun _ => ih6 (by omega)⟩
      intro t ht
      rcases Nat.lt_or_ge t (c - (extendUL rack player numRows c (r0 + 1)).1)
        with hk | hk
      · exact ih4 t hk
      · have ht1 : (extendUL rack player numRows c (r0 + 1)).1 + t = c := by
          omega
        have ht2 : (extendUL rack player numRows c (r0 + 1)).2 - t = r0 + 1 := by
          omega
        rw [ht1, ht2]
        simpa using h.2
    · have hstep : extendUL rack player numRows (c + 1) r0 = (c + 1, r0) := by
        rw [extendUL, if_neg h]
      simp only [hstep]
      refine ⟨le_rfl, le_rfl, by omega, fun t ht => by omega, ?_, fun hh => hh⟩
      rcases Decidable.not_and_iff_or_not.mp h with h' | h'
      · exact Or.inr (Or.inl h')
      · exact Or.inr (Or.inr (by simpa using h'))

/-- Invariants of the down-right extension of the backward-diagonal scan. -/
theorem extendDR_spec (rack : Board) (player : Int) (numCols : Nat) :
    ∀ s0 d0, d0 ≤ (extendDR rack player numCols d0 s0).1 ∧
      (extendDR rack player numCols d0 s0).2 ≤ s0 ∧
      (extendDR rack player numCols d0 s0).1 - d0
        = s0 - (extendDR rack player numCols d0 s0).2 ∧
      (∀ k, d0 < k → k ≤ (extendDR rack player numCols d0 s0).1 →
        getCell rack k (s0 - (k - d0)) = player) ∧
      ((extendDR rack player numCols d0 s0).2 = 0 ∨
        ¬ (extendDR rack player numCols d0 s0).1 < numCols - 1 ∨
        getCell rack ((extendDR rack player numCols d0 s0).1 + 1)
          ((extendDR rack player numCols d0 s0).2 - 1) ≠ player) ∧
      (d0 < numCols → (extendDR rack player numCols d0 s0).1 < numCols) := by
  intro s0
  induction s0 with
  | zero =>
    intro d0
    have hstep : extendDR rack player numCols d0 0 = (d0, 0) := rfl
    simp only [hstep]
    exact ⟨le_rfl, le_rfl, by omega, fun k h1 h2 => by omega, Or.inl trivial,
      fun h => h⟩
  | succ s ih =>
    intro d0
    by_cases h : d0 < numCols - 1 ∧ (getCell rack (d0 + 1) s == player) = true
    · have hstep : extendDR rack player numCols d0 (s + 1)
          = extendDR rack player numCols (d0 + 1) s := by
        rw [extendDR, if_pos h]
      rw [hstep]
      obtain ⟨ih1, ih2, ih3, ih4, ih5, ih6⟩ := ih (d0 + 1)
      refine ⟨by omega, by omega, by omega, ?_, ih5, fun _ => ih6 (by omega)⟩
      intro k h1 h2
      rcases Nat.lt_or_ge (d0 + 1) k with hk | hk
      · have : s + 1 - (k - d0) = s - (k - (d0 + 1)) := by omega
        rw [this]
        exact ih4 k hk h2
      · have hk' : k = d0 + 1 := by omega
        subst hk'
        have : s + 1 - (d0 + 1 - d0) = s := by omega
        rw [this]
        simpa using h.2
    · have hstep : extendDR rack player numCols d0 (s + 1) = (d0, s + 1) := by
        rw [extendDR, if_neg h]
      simp only [hstep]
      refine ⟨le_rfl, le_rfl, by omega, fun k h1 h2 => by omega, ?_,
        fun hh => hh⟩
      rcases Decidable.not_and_iff_or_not.mp h with h' | h'
      · exact Or.inr (Or.inl h')
      · exact Or.inr (Or.inr (by simpa using h'))

/-- C3 counterexample: on a rack holding a horizontal run of five discs,
`find_win` returns the endpoints of the full five-cell run — 4 columns
apart — not the endpoints of a four-cell sub-run 3 apart. -/
theorem find_win_counterexample :
    find_win [[(1 : Int)], [1], [1], [1], [1]] 2 = some ((0, 0), (4, 0)) ∧
      (4 : Nat) - 0 ≠ 3 := ⟨by decide, by decide⟩

/-- C3 (amended): on a rectangular rack with a valid column hint, when
`find_win` reports a win its two endpoints delimit a contiguous run of
cells all owned by the player of the hinted column's most recently dropped
disc: a vertical win reports the top four cells of the run (endpoints
exactly 3 rows apart), while horizontal and diagonal wins report the run
extended maximally in both directions through the dropped cell — endpoints
at least 3 columns apart, and the full run's endpoints even when the run
is longer than four. -/
theorem find_win_endpoints (rack : Board) (column : Nat)
    (_hrect : ∀ col ∈ rack, col.length = (rack.getD 0 []).length)
    (hcol : column < rack.length) (e1 e2 : Nat × Nat)
    (hwin : find_win rack column = some (e1, e2)) :
    ∃ row, findTopRowAux (rack.getD column []) ((rack.getD 0 []).length)
        = some row ∧
      getCell rack column row ≠ 0 ∧
      ((e1 = (column, row - 3) ∧ e2 = (column, row) ∧ 3 ≤ row ∧
        (∀ t, t ≤ 3 → getCell rack column (row - 3 + t)
          = getCell rack column row)) ∨
       (e1.2 = row ∧ e2.2 = row ∧ e1.1 ≤ column ∧ column ≤ e2.1 ∧
        e1.1 + 3 ≤ e2.1 ∧
        (∀ k, e1.1 ≤ k → k ≤ e2.1 →
          getCell rack k row = getCell rack column row) ∧
        (e1.1 = 0 ∨ getCell rack (e1.1 - 1) row ≠ getCell rack column row) ∧
        (rack.length ≤ e2.1 + 1 ∨
          getCell rack (e2.1 + 1) row ≠ getCell rack column row)) ∨
       (e1.1 + 3 ≤ e2.1 ∧ e2.1 - e1.1 = e2.2 - e1.2 ∧ e1.1 ≤ column ∧
        column ≤ e2.1 ∧
        (∀ t, t ≤ e2.1 - e1.1 → getCell rack (e1.1 + t) (e1.2 + t)
          = getCell rack column row) ∧
        (e1.1 = 0 ∨ e1.2 = 0 ∨
          getCell rack (e1.1 - 1) (e1.2 - 1) ≠ getCell rack column row) ∧
        ((e2.1 < rack.length - 1 ∧ e2.2 < (rack.getD 0 []).length - 1) →
          getCell rack (e2.1 + 1) (e2.2 + 1) ≠ getCell rack column row)) ∨
       (e1.1 + 3 ≤ e2.1 ∧ e2.1 - e1.1 = e1.2 - e2.2 ∧ e1.1 ≤ column ∧
        column ≤ e2.1 ∧
        (∀ t, t ≤ e2.1 - e1.1 → getCell rack (e1.1 + t) (e1.2 - t)
          = getCell rack column row) ∧
        (e1.1 = 0 ∨ ¬ e1.2 < (rack.getD 0 []).length - 1 ∨
          getCell rack (e1.1 - 1) (e1.2 + 1) ≠ getCell rack column row) ∧
        (e2.2 = 0 ∨ ¬ e2.1 < rack.length - 1 ∨
          getCell rack (e2.1 + 1) (e2.2 - 1) ≠ getCell rack column row))) := by
  simp only [find_win] at hwin
  cases hft : findTopRowAux (rack.getD column []) ((rack.getD 0 []).length) with
  | none => simp only [hft] at hwin; cases hwin
  | some row =>
    simp only [hft] at hwin
    obtain ⟨hrlt, hr0⟩ := findTopRowAux_eq_some hft
    refine ⟨row, rfl, hr0, ?_⟩
    by_cases hv : 3 ≤ row ∧
        (getCell rack column row == getCell rack column (row - 1)) = true ∧
        (getCell rack column row == getCell rack column (row - 2)) = true ∧
        (getCell rack column row == getCell rack column (row - 3)) = true
    · rw [if_pos hv] at hwin
      simp only [Option.some.injEq, Prod.mk.injEq] at hwin
      obtain ⟨h1, h2⟩ := hwin
      refine Or.inl ⟨h1.symm, h2.symm, hv.1, ?_⟩
      intro t ht
      obtain ⟨hv0, hv1, hv2, hv3⟩ := hv
      interval_cases t
      · have h : row - 3 + 0 = row - 3 := by omega
        rw [h]
        exact (beq_iff_eq.mp hv3).symm
      · have h : row - 3 + 1 = row - 2 := by omega
        rw [h]
        exact (beq_iff_eq.mp hv2).symm
      · have h : row - 3 + 2 = row - 1 := by omega
        rw [h]
        exact (beq_iff_eq.mp hv1).symm
      · have h : row - 3 + 3 = row := by omega
        rw [h]
    · rw [if_neg hv] at hwin
      by_cases hh : 3 ≤ extendRight rack (getCell rack column row) row
          rack.length column -
          extendLeft rack (getCell rack column row) row column
      · rw [if_pos hh] at hwin
        simp only [Option.some.injEq, Prod.mk.injEq] at hwin
        obtain ⟨h1, h2⟩ := hwin
        subst h1
        subst h2
        obtain ⟨hl1, hl2, hl3⟩ :=
          extendLeft_spec rack (getCell rack column row) row column
        obtain ⟨hr1, hr2, hr3, hr4⟩ :=
          extendRight_spec rack (getCell rack column row) row rack.length column
        refine Or.inr (Or.inl ⟨rfl, rfl, hl1, hr1, by omega, ?_, hl3, ?_⟩)
        · intro k hk1 hk2
          rcases Nat.lt_or_ge k column with hk | hk
          · exact hl2 k hk1 hk
          · rcases Nat.eq_or_lt_of_le hk with heq | hk'
            · rw [← heq]
            · exact hr2 k hk' hk2
        · rcases Nat.lt_or_ge (extendRight rack (getCell rack column row) row
              rack.length column) (rack.length - 1) with hd | hd
          · exact Or.inr (hr3 hd)
          · exact Or.inl (by omega)
      · rw [if_neg hh] at hwin
        by_cases hne : 3 ≤ (extendUR rack (getCell rack column row)
            rack.length ((rack.getD 0 []).length) column row).1 -
            (extendDL rack (getCell rack column row) column row).1
        · rw [if_pos hne] at hwin
          simp only [Option.some.injEq, Prod.mk.injEq] at hwin
          obtain ⟨h1, h2⟩ := hwin
          subst h1
          subst h2
          obtain ⟨hdl1, hdl2, hdl3, hdl4, hdl5⟩ :=
            extendDL_spec rack (getCell rack column row) column row
          obtain ⟨hur1, hur2, hur3, hur4, hur5, hur6⟩ :=
            extendUR_spec rack (getCell rack column row) rack.length
              ((rack.getD 0 []).length) column row
          refine Or.inr (Or.inr (Or.inl
            ⟨by omega, by omega, hdl1, hur1, ?_, hdl5, hur5⟩))
          intro t ht
          rcases Nat.lt_or_ge t (column -
              (extendDL rack (getCell rack column row) column row).1) with hk | hk
          · exact hdl4 t hk
          · rcases Nat.eq_or_lt_of_le hk with heq | hk'
            · have ha : (extendDL rack (getCell rack column row) column row).1
                  + t = column := by omega
              have hb : (extendDL rack (getCell rack column row) column row).2
                  + t = row := by omega
              rw [ha, hb]
            · have hkk : column < (extendDL rack (getCell rack column row)
                  column row).1 + t := by omega
              have hle : (extendDL rack (getCell rack column row) column
                  row).1 + t ≤ (extendUR rack (getCell rack column row)
                  rack.length ((rack.getD 0 []).length) column row).1 := by
                omega
              have hcell := hur4 _ hkk hle
              have hidx : row + ((extendDL rack (getCell rack column row)
                  column row).1 + t - column) = (extendDL rack
                  (getCell rack column row) column row).2 + t := by omega
              rw [← hidx]
              exact hcell
        · rw [if_neg hne] at hwin
          by_cases hnw : 3 ≤ (extendDR rack (getCell rack column row)
              rack.length column row).1 -
              (extendUL rack (getCell rack column row)
                ((rack.getD 0 []).length) column row).1
          · rw [if_pos hnw] at hwin
            simp only [Option.some.injEq, Prod.mk.injEq] at hwin
            obtain ⟨h1, h2⟩ := hwin
            subst h1
            subst h2
            obtain ⟨hul1, hul2, hul3, hul4, hul5, hul6⟩ :=
              extendUL_spec rack (getCell rack column row)
                ((rack.getD 0 []).length) column row
            obtain ⟨hdr1, hdr2, hdr3, hdr4, hdr5, hdr6⟩ :=
              extendDR_spec rack (getCell rack column row) rack.length row column
            refine Or.inr (Or.inr (Or.inr
              ⟨by omega, by omega, hul1, hdr1, ?_, hul5, hdr5⟩))
            intro t ht
            rcases Nat.lt_or_ge t (column -
                (extendUL rack (getCell rack column row)
                  ((rack.getD 0 []).length) column row).1) with hk | hk
            · exact hul4 t hk
            · rcases Nat.eq_or_lt_of_le hk with heq | hk'
              · have ha : (extendUL rack (getCell rack column row)
                    ((rack.getD 0 []).length) column row).1 + t = column := by
                  omega
                have hb : (extendUL rack (getCell rack column row)
                    ((rack.getD 0 []).length) column row).2 - t = row := by
                  omega
                rw [ha, hb]
              · have hkk : column < (extendUL rack (getCell rack column row)
                    ((rack.getD 0 []).length) column row).1 + t := by omega
                have hle : (extendUL rack (getCell rack column row)
                    ((rack.getD 0 []).length) column row).1 + t ≤
                    (extendDR rack (getCell rack column row) rack.length
                      column row).1 := by omega
                have hcell := hdr4 _ hkk hle
                have hidx : row - ((extendUL rack (getCell rack column row)
                    ((rack.getD 0 []).length) column row).1 + t - column)
                    = (extendUL rack (getCell rack column row)
                      ((rack.getD 0 []).length) column row).2 - t := by omega
                rw [← hidx]
                exact hcell
          · rw [if_neg hnw] at hwin
            cases hwin

/-- Witness for C3's amended theorem on a horizontal four-in-a-row. -/
theorem find_win_endpoints_witness :
    ∃ row, findTopRowAux ([[(1 : Int)], [1], [1], [1], [2]].getD 1 [])
        (([[(1 : Int)], [1], [1], [1], [2]].getD 0 []).length) = some row ∧
      getCell [[(1 : Int)], [1], [1], [1], [2]] 1 row ≠ 0 := by
  obtain ⟨row, h1, h2, -⟩ :=
    find_win_endpoints [[(1 : Int)], [1], [1], [1], [2]] 1
      (by decide) (by decide) (0, 0) (3, 0) (by decide)
  exact ⟨row, h1, h2⟩

/-! ## Claim C6 — alpha-beta pruning versus plain minimax

The two searches disagree in general: the `±1` win-distance adjustment
interacts with pruning (a pruned sibling can feed the parent a value one
off the true one, which survives to the root), exhibited by a concrete
board below.  They do agree — with full window invariance — whenever no
position in the searched tree is decided (all static evaluations stay
within the `±100000` threshold), which is captured by the `undecidedTree`
predicate and the classical fail-soft bounds. -/

/-- Step equation: the plain-minimax loop at an open column. -/
theorem mmLoop_cons_open (g : Board → Int) (id : Int) (board : Board)
    (i : Nat) (rest : List Nat) (seed : Int) {row : Nat}
    (hopen : colOpen (board.getD i []) = true)
    (hrow : findTopSpotOpen (board.getD i []) = some row) :
    mmLoop g id board (i :: rest) seed
      = mmLoop g id board rest (max (-(g (setCell board i row id))) seed) := by
  simp only [mmLoop]
  rw [if_pos hopen, hrow]

/-- Step equation: the plain-minimax loop at an open column with no free
cell (unreachable in play, present for totality). -/
theorem mmLoop_cons_none (g : Board → Int) (id : Int) (board : Board)
    (i : Nat) (rest : List Nat) (seed : Int)
    (hopen : colOpen (board.getD i []) = true)
    (hrow : findTopSpotOpen (board.getD i []) = none) :
    mmLoop g id board (i :: rest) seed = mmLoop g id board rest seed := by
  simp only [mmLoop]
  rw [if_pos hopen, hrow]

/-- Step equation: the plain-minimax loop skips a full column. -/
theorem mmLoop_cons_skip (g : Board → Int) (id : Int) (board : Board)
    (i : Nat) (rest : List Nat) (seed : Int)
    (hopen : ¬ colOpen (board.getD i []) = true) :
    mmLoop g id board (i :: rest) seed = mmLoop g id board rest seed := by
  simp only [mmLoop]
  rw [if_neg hopen]

/-- Step equation: the alpha-beta loop at an open column (including the
`break` test). -/
theorem abpLoop_cons_open (f : Board → Int → Int → Int) (id : Int)
    (board : Board) (i : Nat) (rest : List Nat) (seed alpha beta : Int)
    {row : Nat}
    (hopen : colOpen (board.getD i []) = true)
    (hrow : findTopSpotOpen (board.getD i []) = some row) :
    abpLoop f id board (i :: rest) seed alpha beta
      = (if max alpha (max (-(f (setCell board i row id) (-beta) (-alpha))) seed) ≥ beta
         then max (-(f (setCell board i row id) (-beta) (-alpha))) seed
         else abpLoop f id board rest
           (max (-(f (setCell board i row id) (-beta) (-alpha))) seed)
           (max alpha (max (-(f (setCell board i row id) (-beta) (-alpha))) seed))
           beta) := by
  simp only [abpLoop]
  rw [if_pos hopen, hrow]

/-- Step equation: the alpha-beta loop at an open column with no free
cell. -/
theorem abpLoop_cons_none (f : Board → Int → Int → Int) (id : Int)
    (board : Board) (i : Nat) (rest : List Nat) (seed alpha beta : Int)
    (hopen : colOpen (board.getD i []) = true)
    (hrow : findTopSpotOpen (board.getD i []) = none) :
    abpLoop f id board (i :: rest) seed alpha beta
      = abpLoop f id board rest seed alpha beta := by
  simp only [abpLoop]
  rw [if_pos hopen, hrow]

/-- Step equation: the alpha-beta loop skips a full column. -/
theorem abpLoop_cons_skip (f : Board → Int → Int → Int) (id : Int)
    (board : Board) (i : Nat) (rest : List Nat) (seed alpha beta : Int)
    (hopen : ¬ colOpen (board.getD i []) = true) :
    abpLoop f id board (i :: rest) seed alpha beta
      = abpLoop f id board rest seed alpha beta := by
  simp only [abpLoop]
  rw [if_neg hopen]

/-- The plain-minimax column loop never returns less than its running
best. -/
theorem mmLoop_ge_seed (g : Board → Int) (id : Int) (board : Board)
    (cols : List Nat) (seed : Int) :
    seed ≤ mmLoop g id board cols seed := by
  induction cols generalizing seed with
  | nil => simp [mmLoop]
  | cons i rest ih =>
    simp only [mmLoop]
    split
    · split
      · exact le_trans (le_max_right _ _) (ih _)
      · exact ih _
    · exact ih _

/-- The seed factors out of the plain-minimax column loop. -/
theorem mmLoop_seed_max (g : Board → Int) (id : Int) (board : Board)
    (cols : List Nat) (x y : Int) :
    mmLoop g id board cols (max x y) = max x (mmLoop g id board cols y) := by
  induction cols generalizing x y with
  | nil => simp [mmLoop]
  | cons i rest ih =>
    simp only [mmLoop]
    split
    · split
      · rename_i row _
        rw [show max (-(g (setCell board i row id))) (max x y)
            = max x (max (-(g (setCell board i row id))) y) by omega]
        exact ih _ _
      · exact ih _ _
    · exact ih _ _

/-- Per-column upper bound for the plain-minimax loop. -/
theorem mmLoop_le_of (g : Board → Int) (id : Int) (board : Board)
    (cols : List Nat) (M U : Int)
    (hch : ∀ i ∈ cols, colOpen (board.getD i []) = true →
      ∀ row, findTopSpotOpen (board.getD i []) = some row →
      -U ≤ g (setCell board i row id))
    (hUM : U ≤ M) :
    ∀ seed, seed ≤ M → mmLoop g id board cols seed ≤ M := by
  induction cols with
  | nil => intro seed h; simpa [mmLoop]
  | cons i rest ih =>
    intro seed hseed
    simp only [mmLoop]
    have hrest : ∀ j ∈ rest, colOpen (board.getD j []) = true →
        ∀ row, findTopSpotOpen (board.getD j []) = some row →
        -U ≤ g (setCell board j row id) :=
      fun j hj => hch j (List.mem_cons_of_mem _ hj)
    by_cases hopen : colOpen (board.getD i []) = true
    · rw [if_pos hopen]
      cases hfr : findTopSpotOpen (board.getD i []) with
      | none => exact ih hrest _ hseed
      | some row =>
        have hs : -(g (setCell board i row id)) ≤ M := by
          have := hch i (List.mem_cons_self _ _) hopen row hfr
          omega
        exact ih hrest _ (max_le hs hseed)
    · rw [if_neg hopen]
      exact ih hrest _ hseed

/-- Per-column lower bound for the plain-minimax loop when some listed
column is open. -/
theorem mmLoop_ge_of_open (g : Board → Int) (id : Int) (board : Board)
    (cols : List Nat) (U : Int)
    (hch : ∀ i ∈ cols, colOpen (board.getD i []) = true →
      ∀ row, findTopSpotOpen (board.getD i []) = some row →
      g (setCell board i row id) ≤ U)
    {i : Nat} (hmem : i ∈ cols) (hopen : colOpen (board.getD i []) = true) :
    ∀ seed, -U ≤ mmLoop g id board cols seed := by
  induction cols with
  | nil => cases hmem
  | cons j rest ih =>
    intro seed
    simp only [mmLoop]
    have hrest : ∀ k ∈ rest, colOpen (board.getD k []) = true →
        ∀ row, findTopSpotOpen (board.getD k []) = some row →
        g (setCell board k row id) ≤ U :=
      fun k hk => hch k (List.mem_cons_of_mem _ hk)
    by_cases hj : colOpen (board.getD j []) = true
    · rw [if_pos hj]
      cases hfr : findTopSpotOpen (board.getD j []) with
      | none =>
        obtain ⟨r, hr, -, -⟩ := findTopSpotOpen_of_colOpen hj
        rw [hfr] at hr
        cases hr
      | some r =>
        have hs : -U ≤ -(g (setCell board j r id)) := by
          have := hch j (List.mem_cons_self _ _) hj r hfr
          omega
        exact le_trans (le_trans hs (le_max_left _ _)) (mmLoop_ge_seed _ _ _ _ _)
    · rw [if_neg hj]
      have hij : i ∈ rest := by
        rcases List.mem_cons.mp hmem with rfl | h
        · exact absurd hopen hj
        · exact h
      exact ih hrest hij _
/-- Per-column upper bound for the alpha-beta loop. -/
theorem abpLoop_le_of (f : Board → Int → Int → Int) (id : Int)
    (board : Board) (cols : List Nat) (M U : Int)
    (hch : ∀ i ∈ cols, colOpen (board.getD i []) = true →
      ∀ row, findTopSpotOpen (board.getD i []) = some row →
      ∀ a2 b2, -U ≤ f (setCell board i row id) a2 b2)
    (hUM : U ≤ M) :
    ∀ seed alpha beta, seed ≤ M →
      abpLoop f id board cols seed alpha beta ≤ M := by
  induction cols with
  | nil => intro seed alpha beta h; simpa [abpLoop]
  | cons i rest ih =>
    intro seed alpha beta hseed
    have hrest : ∀ j ∈ rest, colOpen (board.getD j []) = true →
        ∀ row, findTopSpotOpen (board.getD j []) = some row →
        ∀ a2 b2, -U ≤ f (setCell board j row id) a2 b2 :=
      fun j hj => hch j (List.mem_cons_of_mem _ hj)
    by_cases hopen : colOpen (board.getD i []) = true
    · cases hfr : findTopSpotOpen (board.getD i []) with
      | none =>
        rw [abpLoop_cons_none f id board i rest seed alpha beta hopen hfr]
        exact ih hrest _ _ _ hseed
      | some row =>
        rw [abpLoop_cons_open f id board i rest seed alpha beta hopen hfr]
        have hs : -(f (setCell board i row id) (-beta) (-alpha)) ≤ M := by
          have := hch i (List.mem_cons_self _ _) hopen row hfr (-beta) (-alpha)
          omega
        split
        · exact max_le hs hseed
        · exact ih hrest _ _ _ (max_le hs hseed)
    · rw [abpLoop_cons_skip f id board i rest seed alpha beta hopen]
      exact ih hrest _ _ _ hseed

/-- Per-column lower bound for the alpha-beta loop when some listed column
is open: the first open column is examined before any `break`. -/
theorem abpLoop_ge_open_of (f : Board → Int → Int → Int) (id : Int)
    (board : Board) (cols : List Nat) (U : Int)
    (hch : ∀ i ∈ cols, colOpen (board.getD i []) = true →
      ∀ row, findTopSpotOpen (board.getD i []) = some row →
      ∀ a2 b2, f (setCell board i row id) a2 b2 ≤ U)
    {i : Nat} (hmem : i ∈ cols) (hopen : colOpen (board.getD i []) = true) :
    ∀ seed alpha beta, -U ≤ abpLoop f id board cols seed alpha beta := by
  induction cols with
  | nil => cases hmem
  | cons j rest ih =>
    intro seed alpha beta
    have hrest : ∀ k ∈ rest, colOpen (board.getD k []) = true →
        ∀ row, findTopSpotOpen (board.getD k []) = some row →
        ∀ a2 b2, f (setCell board k row id) a2 b2 ≤ U :=
      fun k hk => hch k (List.mem_cons_of_mem _ hk)
    by_cases hj : colOpen (board.getD j []) = true
    · cases hfr : findTopSpotOpen (board.getD j []) with
      | none =>
        obtain ⟨r, hr, -, -⟩ := findTopSpotOpen_of_colOpen hj
        rw [hfr] at hr
        cases hr
      | some r =>
        rw [abpLoop_cons_open f id board j rest seed alpha beta hj hfr]
        have hs : -U ≤ -(f (setCell board j r id) (-beta) (-alpha)) := by
          have := hch j (List.mem_cons_self _ _) hj r hfr (-beta) (-alpha)
          omega
        split
        · exact le_trans hs (le_max_left _ _)
        · exact le_trans (le_trans hs (le_max_left _ _))
            (abpLoop_ge_seed _ _ _ _ _ _ _)
    · rw [abpLoop_cons_skip f id board j rest seed alpha beta hj]
      have hij : i ∈ rest := by
        rcases List.mem_cons.mp hmem with rfl | h
        · exact absurd hopen hj
        · exact h
      exact ih hrest hij _ _ _

/-- No position reachable within `n` plies of the given position is
decided: every static evaluation along the way stays within the `±100000`
threshold (so neither the decided-outcome branches nor the `±1`
adjustments of either search ever fire in the searched tree). -/
def undecidedTree (id : Int) (board : Board) : Nat → Bool
  | 0 => decide (-100000 ≤ evalFunction id board) &&
      decide (evalFunction id board ≤ 100000)
  | n + 1 =>
    (decide (-100000 ≤ evalFunction id board) &&
      decide (evalFunction id board ≤ 100000)) &&
    (isTie board ||
      (List.range board.length).all fun i =>
        if colOpen (board.getD i []) then
          match findTopSpotOpen (board.getD i []) with
          | some row => undecidedTree (flipPlayer id) (setCell board i row id) n
          | none => true
        else true)

/-- Unpacking `undecidedTree` at a successor depth. -/
theorem undecidedTree_succ {id : Int} {board : Board} {n : Nat}
    (h : undecidedTree id board (n + 1) = true) :
    (-100000 ≤ evalFunction id board ∧ evalFunction id board ≤ 100000) ∧
      (isTie board = true ∨
        ∀ i ∈ List.range board.length, colOpen (board.getD i []) = true →
          ∀ row, findTopSpotOpen (board.getD i []) = some row →
          undecidedTree (flipPlayer id) (setCell board i row id) n = true) := by
  rw [undecidedTree] at h
  rw [Bool.and_eq_true, Bool.and_eq_true, Bool.or_eq_true] at h
  obtain ⟨⟨h1, h2⟩, h3⟩ := h
  refine ⟨⟨of_decide_eq_true h1, of_decide_eq_true h2⟩, ?_⟩
  rcases h3 with h3 | h3
  · exact Or.inl h3
  · right
    intro i hi hopen row hrow
    have hall := List.all_eq_true.mp h3 i hi
    rw [if_pos hopen] at hall
    simp only [hrow] at hall
    exact hall

/-- Fail-soft alpha-beta loop invariants (Knuth-Moore), relative to a
child dictionary: whenever every child's pruned score `f b a2 b2` bounds
its true score `g b` in the usual fail-soft way, the loop value `A` bounds
the plain-minimax loop value `W`: if `A < beta` then `W ≤ max A alpha`,
and if `alpha < A` then `min A beta ≤ W`. -/
theorem abpLoop_mmLoop_Q (f : Board → Int → Int → Int) (g : Board → Int)
    (id : Int) (board : Board) :
    ∀ cols : List Nat,
      (∀ i ∈ cols, colOpen (board.getD i []) = true →
        ∀ row, findTopSpotOpen (board.getD i []) = some row →
        ∀ a2 b2 : Int, a2 < b2 →
          (f (setCell board i row id) a2 b2 < b2 →
            g (setCell board i row id) ≤
              max (f (setCell board i row id) a2 b2) a2) ∧
          (a2 < f (setCell board i row id) a2 b2 →
            min (f (setCell board i row id) a2 b2) b2 ≤
              g (setCell board i row id))) →
      ∀ seed alpha beta : Int, alpha < beta →
        (abpLoop f id board cols seed alpha beta < beta →
          mmLoop g id board cols seed ≤
            max (abpLoop f id board cols seed alpha beta) alpha) ∧
        (alpha < abpLoop f id board cols seed alpha beta →
          min (abpLoop f id board cols seed alpha beta) beta ≤
            mmLoop g id board cols seed) := by
  intro cols
  induction cols with
  | nil =>
    intro hch seed alpha beta hab
    constructor
    · intro h
      simp only [abpLoop, mmLoop]
      exact le_max_left _ _
    · intro h
      simp only [abpLoop, mmLoop]
      exact min_le_left _ _
  | cons i rest ih =>
    intro hch seed alpha beta hab
    have hrest := fun j hj => hch j (List.mem_cons_of_mem _ hj)
    by_cases hopen : colOpen (board.getD i []) = true
    · cases hfr : findTopSpotOpen (board.getD i []) with
      | none =>
        rw [abpLoop_cons_none f id board i rest seed alpha beta hopen hfr,
          mmLoop_cons_none g id board i rest seed hopen hfr]
        exact ih hrest seed alpha beta hab
      | some row =>
        rw [abpLoop_cons_open f id board i rest seed alpha beta hopen hfr,
          mmLoop_cons_open g id board i rest seed hopen hfr]
        have hich := hch i (List.mem_cons_self _ _) hopen row hfr
        set s := -(f (setCell board i row id) (-beta) (-alpha)) with hsdef
        set t := -(g (setCell board i row id)) with htdef
        have hst1 : alpha < s → min s beta ≤ t := by
          intro hs
          have h1 := (hich (-beta) (-alpha) (by omega)).1 (by omega)
          omega
        have hst2 : s < beta → t ≤ max s alpha := by
          intro hs
          have h2 := (hich (-beta) (-alpha) (by omega)).2 (by omega)
          omega
        by_cases hbr : max alpha (max s seed) ≥ beta
        · rw [if_pos hbr]
          constructor
          · intro habs
            exfalso
            omega
          · intro haA
            have hW := mmLoop_ge_seed g id board rest (max t seed)
            by_cases hs' : alpha < s
            · have h1 := hst1 hs'
              omega
            · omega
        · rw [if_neg hbr]
          have hab' : max alpha (max s seed) < beta := by omega
          have hIH := ih hrest (max s seed) (max alpha (max s seed)) beta hab'
          rw [mmLoop_seed_max g id board rest t seed]
          rw [mmLoop_seed_max g id board rest s seed] at hIH
          obtain ⟨hIH1, hIH2⟩ := hIH
          have hAge := abpLoop_ge_seed f id board rest (max s seed)
            (max alpha (max s seed)) beta
          have hNge := mmLoop_ge_seed g id board rest seed
          constructor
          · intro hAb
            have i1 := hIH1 hAb
            have h2 := hst2 (by omega)
            omega
          · intro haA
            by_cases hc : max alpha (max s seed) <
                abpLoop f id board rest (max s seed)
                  (max alpha (max s seed)) beta
            · have i2 := hIH2 hc
              by_cases hs' : alpha < s
              · have h1 := hst1 hs'
                omega
              · omega
            · by_cases hs' : alpha < s
              · have h1 := hst1 hs'
                omega
              · omega
    · rw [abpLoop_cons_skip f id board i rest seed alpha beta hopen,
        mmLoop_cons_skip g id board i rest seed hopen]
      exact ih hrest seed alpha beta hab

/-- In an undecided search tree both searches stay within the `±100000`
threshold, for every pruning window. -/
theorem quiet_bounds : ∀ (n : Nat) (id : Int) (board : Board),
    undecidedTree id board n = true →
    (-100000 ≤ minimaxN id board n ∧ minimaxN id board n ≤ 100000) ∧
    ∀ alpha beta : Int, -100000 ≤ minimaxABPN id board n alpha beta ∧
      minimaxABPN id board n alpha beta ≤ 100000 := by
  intro n
  induction n with
  | zero =>
    intro id board h
    rw [undecidedTree, Bool.and_eq_true] at h
    obtain ⟨h1, h2⟩ := h
    have e1 := of_decide_eq_true h1
    have e2 := of_decide_eq_true h2
    exact ⟨⟨e1, e2⟩, fun alpha beta => ⟨e1, e2⟩⟩
  | succ n ih =>
    intro id board h
    obtain ⟨⟨he1, he2⟩, hrec⟩ := undecidedTree_succ h
    have hc1 : ¬ (evalFunction id board > 100000) := by omega
    have hc2 : ¬ (evalFunction id board < -100000) := by omega
    by_cases htie : isTie board = true
    · have eM : minimaxN id board (n + 1) = 0 := by
        simp only [minimaxN]
        rw [if_neg hc1, if_neg hc2, if_pos htie]
      have eA : ∀ alpha beta : Int,
          minimaxABPN id board (n + 1) alpha beta = 0 := by
        intro alpha beta
        simp only [minimaxABPN]
        rw [if_neg hc1, if_neg hc2, if_pos htie]
      rw [eM]
      refine ⟨⟨by omega, by omega⟩, fun alpha beta => ?_⟩
      rw [eA]
      exact ⟨by omega, by omega⟩
    · have htie' : isTie board = false := Bool.eq_false_iff.mpr htie
      have hquiet := hrec.resolve_left htie
      obtain ⟨iop, hiop, hjop⟩ := exists_open_of_not_tie htie'
      have hlowM : ∀ i ∈ List.range board.length,
          colOpen (board.getD i []) = true →
          ∀ row, findTopSpotOpen (board.getD i []) = some row →
          -100000 ≤ minimaxN (flipPlayer id) (setCell board i row id) n :=
        fun i hi ho row hrow => ((ih _ _ (hquiet i hi ho row hrow)).1).1
      have hupM : ∀ i ∈ List.range board.length,
          colOpen (board.getD i []) = true →
          ∀ row, findTopSpotOpen (board.getD i []) = some row →
          minimaxN (flipPlayer id) (setCell board i row id) n ≤ 100000 :=
        fun i hi ho row hrow => ((ih _ _ (hquiet i hi ho row hrow)).1).2
      have hlowA : ∀ i ∈ List.range board.length,
          colOpen (board.getD i []) = true →
          ∀ row, findTopSpotOpen (board.getD i []) = some row →
          ∀ a2 b2 : Int,
          -100000 ≤ minimaxABPN (flipPlayer id) (setCell board i row id) n a2 b2 :=
        fun i hi ho row hrow a2 b2 =>
          ((ih _ _ (hquiet i hi ho row hrow)).2 a2 b2).1
      have hupA : ∀ i ∈ List.range board.length,
          colOpen (board.getD i []) = true →
          ∀ row, findTopSpotOpen (board.getD i []) = some row →
          ∀ a2 b2 : Int,
          minimaxABPN (flipPlayer id) (setCell board i row id) n a2 b2 ≤ 100000 :=
        fun i hi ho row hrow a2 b2 =>
          ((ih _ _ (hquiet i hi ho row hrow)).2 a2 b2).2
      have hWle := mmLoop_le_of (fun b => minimaxN (flipPlayer id) b n) id board
        (List.range board.length) 100000 100000 hlowM le_rfl
        (-100000000) (by norm_num)
      have hWge := mmLoop_ge_of_open (fun b => minimaxN (flipPlayer id) b n) id
        board (List.range board.length) 100000 hupM hiop hjop (-100000000)
      have eM : minimaxN id board (n + 1)
          = mmLoop (fun b => minimaxN (flipPlayer id) b n) id board
            (List.range board.length) (-100000000) := by
        simp only [minimaxN]
        rw [if_neg hc1, if_neg hc2, if_neg htie, if_neg (by omega),
          if_neg (by omega)]
      constructor
      · rw [eM]
        exact ⟨hWge, hWle⟩
      · intro alpha beta
        have hAle := abpLoop_le_of
          (fun b a' b' => minimaxABPN (flipPlayer id) b n a' b') id board
          (List.range board.length) 100000 100000 hlowA le_rfl
          (-100000000) alpha beta (by norm_num)
        have hAge := abpLoop_ge_open_of
          (fun b a' b' => minimaxABPN (flipPlayer id) b n a' b') id board
          (List.range board.length) 100000 hupA hiop hjop
          (-100000000) alpha beta
        have eA : minimaxABPN id board (n + 1) alpha beta
            = abpLoop (fun b a' b' => minimaxABPN (flipPlayer id) b n a' b')
              id board (List.range board.length) (-100000000) alpha beta := by
          simp only [minimaxABPN]
          rw [if_neg hc1, if_neg hc2, if_neg htie, if_neg (by omega),
            if_neg (by omega)]
        rw [eA]
        exact ⟨hAge, hAle⟩

/-- Node-level fail-soft invariants for the two searches on an undecided
tree: writing `r` for the pruned and `v` for the plain value, `r < beta`
forces `v ≤ max r alpha`, and `alpha < r` forces `min r beta ≤ v`. -/
theorem quiet_Q : ∀ (n : Nat) (id : Int) (board : Board),
    undecidedTree id board n = true →
    ∀ alpha beta : Int, alpha < beta →
      (minimaxABPN id board n alpha beta < beta →
        minimaxN id board n ≤ max (minimaxABPN id board n alpha beta) alpha) ∧
      (alpha < minimaxABPN id board n alpha beta →
        min (minimaxABPN id board n alpha beta) beta ≤ minimaxN id board n) := by
  intro n
  induction n with
  | zero =>
    intro id board h alpha beta hab
    have e : minimaxABPN id board 0 alpha beta = minimaxN id board 0 := rfl
    rw [e]
    exact ⟨fun h1 => le_max_left _ _, fun h1 => min_le_left _ _⟩
  | succ n ih =>
    intro id board h alpha beta hab
    obtain ⟨⟨he1, he2⟩, hrec⟩ := undecidedTree_succ h
    have hc1 : ¬ (evalFunction id board > 100000) := by omega
    have hc2 : ¬ (evalFunction id board < -100000) := by omega
    by_cases htie : isTie board = true
    · have eM : minimaxN id board (n + 1) = 0 := by
        simp only [minimaxN]
        rw [if_neg hc1, if_neg hc2, if_pos htie]
      have eA : minimaxABPN id board (n + 1) alpha beta = 0 := by
        simp only [minimaxABPN]
        rw [if_neg hc1, if_neg hc2, if_pos htie]
      rw [eM, eA]
      exact ⟨fun h1 => le_max_left _ _, fun h1 => min_le_left _ _⟩
    · have htie' : isTie board = false := Bool.eq_false_iff.mpr htie
      have hquiet := hrec.resolve_left htie
      obtain ⟨iop, hiop, hjop⟩ := exists_open_of_not_tie htie'
      have hch : ∀ i ∈ List.range board.length,
          colOpen (board.getD i []) = true →
          ∀ row, findTopSpotOpen (board.getD i []) = some row →
          ∀ a2 b2 : Int, a2 < b2 →
            (minimaxABPN (flipPlayer id) (setCell board i row id) n a2 b2 < b2 →
              minimaxN (flipPlayer id) (setCell board i row id) n ≤
                max (minimaxABPN (flipPlayer id) (setCell board i row id) n a2 b2)
                  a2) ∧
            (a2 < minimaxABPN (flipPlayer id) (setCell board i row id) n a2 b2 →
              min (minimaxABPN (flipPlayer id) (setCell board i row id) n a2 b2)
                  b2 ≤
                minimaxN (flipPlayer id) (setCell board i row id) n) :=
        fun i hi ho row hrow a2 b2 hab2 =>
          ih _ _ (hquiet i hi ho row hrow) a2 b2 hab2
      have hQ := abpLoop_mmLoop_Q
        (fun b a' b' => minimaxABPN (flipPlayer id) b n a' b')
        (fun b => minimaxN (flipPlayer id) b n) id board
        (List.range board.length) hch (-100000000) alpha beta hab
      have hupM : ∀ i ∈ List.range board.length,
          colOpen (board.getD i []) = true →
          ∀ row, findTopSpotOpen (board.getD i []) = some row →
          minimaxN (flipPlayer id) (setCell board i row id) n ≤ 100000 :=
        fun i hi ho row hrow =>
          ((quiet_bounds n _ _ (hquiet i hi ho row hrow)).1).2
      have hlowM : ∀ i ∈ List.range board.length,
          colOpen (board.getD i []) = true →
          ∀ row, findTopSpotOpen (board.getD i []) = some row →
          -100000 ≤ minimaxN (flipPlayer id) (setCell board i row id) n :=
        fun i hi ho row hrow =>
          ((quiet_bounds n _ _ (hquiet i hi ho row hrow)).1).1
      have hlowA : ∀ i ∈ List.range board.length,
          colOpen (board.getD i []) = true →
          ∀ row, findTopSpotOpen (board.getD i []) = some row →
          ∀ a2 b2 : Int,
          -100000 ≤ minimaxABPN (flipPlayer id) (setCell board i row id) n a2 b2 :=
        fun i hi ho row hrow a2 b2 =>
          ((quiet_bounds n _ _ (hquiet i hi ho row hrow)).2 a2 b2).1
      have hupA : ∀ i ∈ List.range board.length,
          colOpen (board.getD i []) = true →
          ∀ row, findTopSpotOpen (board.getD i []) = some row →
          ∀ a2 b2 : Int,
          minimaxABPN (flipPlayer id) (setCell board i row id) n a2 b2 ≤ 100000 :=
        fun i hi ho row hrow a2 b2 =>
          ((quiet_bounds n _ _ (hquiet i hi ho row hrow)).2 a2 b2).2
      have hWle := mmLoop_le_of (fun b => minimaxN (flipPlayer id) b n) id board
        (List.range board.length) 100000 100000 hlowM le_rfl
        (-100000000) (by norm_num)
      have hWge := mmLoop_ge_of_open (fun b => minimaxN (flipPlayer id) b n) id
        board (List.range board.length) 100000 hupM hiop hjop (-100000000)
      have hAle := abpLoop_le_of
        (fun b a' b' => minimaxABPN (flipPlayer id) b n a' b') id board
        (List.range board.length) 100000 100000 hlowA le_rfl
        (-100000000) alpha beta (by norm_num)
      have hAge := abpLoop_ge_open_of
        (fun b a' b' => minimaxABPN (flipPlayer id) b n a' b') id board
        (List.range board.length) 100000 hupA hiop hjop
        (-100000000) alpha beta
      have eM : minimaxN id board (n + 1)
          = mmLoop (fun b => minimaxN (flipPlayer id) b n) id board
            (List.range board.length) (-100000000) := by
        simp only [minimaxN]
        rw [if_neg hc1, if_neg hc2, if_neg htie, if_neg (by omega),
          if_neg (by omega)]
      have eA : minimaxABPN id board (n + 1) alpha beta
          = abpLoop (fun b a' b' => minimaxABPN (flipPlayer id) b n a' b')
            id board (List.range board.length) (-100000000) alpha beta := by
        simp only [minimaxABPN]
        rw [if_neg hc1, if_neg hc2, if_neg htie, if_neg (by omega),
          if_neg (by omega)]
      rw [eM, eA]
      exact hQ

/-- A position (columns bottom-to-top) on which pruning changes the
root value: in column 1 the pruned search cuts off after a slower win and
misses a faster one, and the resulting off-by-one value survives to the
root. -/
def pruningRack : Board :=
  [[1, 2, 1, 0], [2, 2, 0, 0], [1, 1, 2, 2], [1, 1, 2, 2], [1, 1, 2, 2],
   [2, 2, 1, 0], [1, 2, 2, 2]]

set_option maxHeartbeats 2000000 in
/-- C6 counterexample: on `pruningRack`, at depth 4 with the full window
used by `pick_move`, `_minimax_with_alpha_beta_pruning` and `_minimax`
return different scores, so the claimed equivalence fails as stated. -/
theorem minimaxABP_pruning_counterexample :
    minimax 1 pruningRack 4 = -9999997 ∧
    minimaxABP 1 pruningRack 4 (-100000000) 100000000 = -9999996 ∧
    minimaxABP 1 pruningRack 4 (-100000000) 100000000 ≠
      minimax 1 pruningRack 4 := by
  have h1 : minimax 1 pruningRack 4 = -9999997 := by decide
  have h2 : minimaxABP 1 pruningRack 4 (-100000000) 100000000 = -9999996 := by
    decide
  refine ⟨h1, h2, ?_⟩
  rw [h1, h2]
  decide

/-- C6 (amended): provided no position in the searched tree is decided
(every static evaluation met within `depth` plies stays inside the
`±100000` threshold), alpha-beta search with the full `pick_move` window
returns exactly the plain minimax score, and so does every window
`(alpha, beta)` that strictly brackets that score. -/
theorem minimaxABP_window_invariance (id : Int) (board : Board) (depth : Int)
    (hq : undecidedTree id board depth.toNat = true) :
    minimaxABP id board depth (-100000000) 100000000 = minimax id board depth ∧
    ∀ alpha beta : Int, alpha < minimax id board depth →
      minimax id board depth < beta →
      minimaxABP id board depth alpha beta = minimax id board depth := by
  have hmain : ∀ alpha beta : Int, alpha < minimaxN id board depth.toNat →
      minimaxN id board depth.toNat < beta →
      minimaxABPN id board depth.toNat alpha beta
        = minimaxN id board depth.toNat := by
    intro alpha beta ha hb
    have hab : alpha < beta := lt_trans ha hb
    obtain ⟨hQ1, hQ2⟩ := quiet_Q depth.toNat id board hq alpha beta hab
    by_cases hrb : minimaxABPN id board depth.toNat alpha beta < beta
    · have h1 := hQ1 hrb
      by_cases har : alpha < minimaxABPN id board depth.toNat alpha beta
      · have h2 := hQ2 har
        omega
      · omega
    · exfalso
      have h2 := hQ2 (by omega)
      omega
  have hbs := quiet_bounds depth.toNat id board hq
  have hfull : minimaxABPN id board depth.toNat (-100000000) 100000000
      = minimaxN id board depth.toNat := by
    have hlo := hbs.1.1
    have hhi := hbs.1.2
    exact hmain _ _ (by omega) (by omega)
  exact ⟨hfull, fun alpha beta ha hb => hmain alpha beta ha hb⟩

/-- Witness for C6: a small undecided position where the theorem applies,
its hypotheses checked by evaluation. -/
theorem minimaxABP_window_invariance_witness :
    undecidedTree 1 [[(0 : Int)], [0]] (2 : Int).toNat = true ∧
    minimaxABP 1 [[(0 : Int)], [0]] 2 (-100000000) 100000000
      = minimax 1 [[(0 : Int)], [0]] 2 := by
  refine ⟨by decide, ?_⟩
  exact (minimaxABP_window_invariance 1 [[(0 : Int)], [0]] 2 (by decide)).1

end Connect4
